import Mathlib

/-!
Verification development for the core of the BugStalker debugger.

The Rust sources under `src/` are shallowly embedded below:
* `Brk`     — breakpoint byte save/restore (breakpoint engine);
* `Dwarf`   — `DebugeeContext` queries (`find_unit_by_pc`, `find_function_by_pc`,
              `find_variables`, `valid_at`, `deref_die`) from `src/debugger/dwarf/mod.rs`;
* `Unwind`  — the CFI unwinder from `src/debugger/debugee/dwarf/unwind.rs`;
* `Tracer`  — the ptrace tracer state machine from `src/debugger/debugee/tracer.rs`.

Machine integers are modelled as `Nat` with explicit wrap-around (`% 2 ^ 64`)
where the source relies on wrapping arithmetic.  Fallible operations return
`Except` or `Option`.  Operating-system behaviour (`waitpid`, `ptrace`,
signals, memory and register reads) is modelled by explicit oracles: an event
list consumed by waits and function-valued environments for reads.
-/

namespace Brk

/-- Debuggee memory, one byte (kept as a `Nat`) per address. -/
def Mem := Nat → Nat

/-- Write a single byte.  The source performs a word-sized
`PTRACE_PEEKDATA`/`POKEDATA` round trip; its net effect on memory is the
single-byte store modelled here. -/
def writeByte (m : Mem) (addr byte : Nat) : Mem :=
  fun a => if a = addr then byte else m a

/-- The x86-64 trap opcode byte written by an enabled breakpoint. -/
def int3 : Nat := 0xCC

/-- Modelled from the spec: breakpoint record (the breakpoint engine is
not under `src/`; fields follow the spec's data model:
`{ addr, owning_thread, enabled, temporary, saved_byte }`). -/
structure Breakpoint where
  addr : Nat
  ownerPid : Int
  enabled : Bool
  temporary : Bool
  savedByte : Option Nat
deriving Repr, DecidableEq

/-- Modelled from the spec: enabling a breakpoint saves the byte present at
its address and then writes the trap opcode byte there. -/
def enableBp (m : Mem) (b : Breakpoint) : Mem × Breakpoint :=
  (writeByte m b.addr int3,
   { b with savedByte := some (m b.addr), enabled := true })

/-- Modelled from the spec: disabling a breakpoint restores the saved byte. -/
def disableBp (m : Mem) (b : Breakpoint) : Mem × Breakpoint :=
  match b.savedByte with
  | some byte => (writeByte m b.addr byte, { b with enabled := false })
  | none => (m, { b with enabled := false })

end Brk

namespace Dwarf

/-- Result of Rust's `slice::binary_search_by_key`: `found i` embeds `Ok(i)`,
`notFound i` embeds `Err(i)` (the insertion point). -/
inductive BSearchResult where
  | found (i : Nat)
  | notFound (i : Nat)
deriving Repr, DecidableEq

/-- Faithful embedding of the loop of Rust's `slice::binary_search_by`:
`cmp i` compares the key at index `i` with the target.  `Less` moves the left
bound past the probe, `Greater` moves the right bound onto it, `Equal`
returns immediately.  The fuel argument only bounds iteration; callers pass
enough fuel for the loop to run to completion. -/
def bsLoop (cmp : Nat → Ordering) : Nat → Nat → Nat → BSearchResult
  | 0, left, _ => .notFound left
  | fuel + 1, left, right =>
    if left < right then
      let mid := left + (right - left) / 2
      match cmp mid with
      | .lt => bsLoop cmp fuel (mid + 1) right
      | .gt => bsLoop cmp fuel left mid
      | .eq => .found mid
    else .notFound left

/-- `slice::binary_search_by_key` over a list of `Nat` keys. -/
def binarySearchNat (keys : List Nat) (target : Nat) : BSearchResult :=
  bsLoop (fun i => compare (keys.getD i 0) target) (keys.length + 1) 0 keys.length

/-- Rust's derived `Ord` on `Option<T>`: `None` is smaller than any `Some`. -/
def cmpOpt : Option Nat → Option Nat → Ordering
  | none, none => .eq
  | none, some _ => .lt
  | some _, none => .gt
  | some a, some b => compare a b

/-- `slice::binary_search_by_key` over `Option<Nat>` keys (unit offsets). -/
def binarySearchOpt (keys : List (Option Nat)) (target : Option Nat) : BSearchResult :=
  bsLoop (fun i => cmpOpt (keys.getD i none) target) (keys.length + 1) 0 keys.length

/-- A gimli PC range.  `low` embeds the source field `begin`, `high` embeds
the source field `end` (a reserved word here). -/
structure Range where
  low : Nat
  high : Nat
deriving Repr, DecidableEq

/-- One element of a unit's sorted `die_ranges` index. -/
structure DieRange where
  range : Range
  die_idx : Nat
deriving Repr, DecidableEq

/-- `parser::unit::FunctionDie`, reduced to an identity tag: the queries
under test only ever select and return function entries. -/
structure FunctionDie where
  tag : Nat
deriving Repr, DecidableEq

/-- `parser::unit::VariableDie`: the part used by `valid_at`. -/
structure VariableDie where
  tag : Nat
  lexical_block_idx : Option Nat
deriving Repr, DecidableEq

/-- `parser::unit::LexicalBlock`: its PC ranges. -/
structure LexicalBlock where
  ranges : List Range
deriving Repr, DecidableEq

/-- The DIE variants distinguished by the queries under test; every other
variant of the source enum is collapsed into `other`. -/
inductive DieVariant where
  | function (f : FunctionDie)
  | var (v : VariableDie)
  | lexicalBlock (lb : LexicalBlock)
  | other
deriving Repr, DecidableEq

/-- `parser::unit::Node`: children as indices into the unit's entry arena. -/
structure Node where
  children : List Nat
deriving Repr, DecidableEq

/-- `parser::unit::Entry`: a DIE plus its tree node. -/
structure Entry where
  die : DieVariant
  node : Node
deriving Repr, DecidableEq

instance : Inhabited Entry := ⟨⟨.other, ⟨[]⟩⟩⟩

/-- `parser::unit::Unit` (named `CompUnit` here to avoid the builtin `Unit`).
`offset` is the unit's `.debug_info` offset; `entryOffsets` backs
`find_entry` (modelled from the spec, the parser is not under `src/`):
it maps a unit-local DIE offset to the index of its entry. -/
structure CompUnit where
  offset : Option Nat
  ranges : List Range
  die_ranges : List DieRange
  entries : List Entry
  entryOffsets : List (Nat × Nat)
deriving Repr, DecidableEq

instance : Inhabited CompUnit := ⟨⟨none, [], [], [], []⟩⟩

instance : Inhabited DieRange := ⟨⟨⟨0, 0⟩, 0⟩⟩

/-- Modelled from the spec: `Unit::find_entry` (parser, not under `src/`)
resolves a unit-local DIE offset to the corresponding entry. -/
def findEntry (u : CompUnit) (off : Nat) : Option Entry :=
  (u.entryOffsets.lookup off).bind fun i => u.entries.get? i

/-- `DebugeeContext::find_unit_by_pc`: first unit whose ranges cover `pc`;
binary search by `begin`, else a linear scan over the preceding prefix
(the source iterates the prefix reversed; `any` is order-independent). -/
def find_unit_by_pc (units : List CompUnit) (pc : Nat) : Option CompUnit :=
  units.find? fun unit =>
    match binarySearchNat (unit.ranges.map (·.low)) pc with
    | .found _ => true
    | .notFound pos =>
      (unit.ranges.take pos).any fun r => r.low ≤ pc && pc ≤ r.high

/-- The backward scan of `find_function_by_pc`:
`die_ranges[..find_pos].iter().rev().find_map(..)`, walking indices
`pos - 1, pos - 2, …, 0` and returning the first function entry whose range
contains `pc`. -/
def scanBack (u : CompUnit) (pc : Nat) : Nat → Option Nat
  | 0 => none
  | pos + 1 =>
    let dr := u.die_ranges.getD pos default
    match (u.entries.getD dr.die_idx default).die with
    | .function _ =>
      if dr.range.low ≤ pc && pc ≤ dr.range.high then some dr.die_idx
      else scanBack u pc pos
    | _ => scanBack u pc pos

/-- `DebugeeContext::find_function_by_pc`: locate the covering unit,
binary-search its `die_ranges` by `begin` (`Ok(pos) ↦ pos + 1`,
`Err(pos) ↦ pos`), then scan backward for the first function range
containing `pc`.  Returns the unit together with the function's `die_idx`. -/
def find_function_by_pc (units : List CompUnit) (pc : Nat) : Option (CompUnit × Nat) :=
  (find_unit_by_pc units pc).bind fun unit =>
    let find_pos :=
      match binarySearchNat (unit.die_ranges.map (·.range.low)) pc with
      | .found pos => pos + 1
      | .notFound pos => pos
    (scanBack unit pc find_pos).map fun die_idx => (unit, die_idx)

/-- `ContextualDieRef::<VariableDie>::valid_at`: with a lexical block, valid
iff one of the block's ranges contains `pc` (bounds inclusive in the
source); without one, always valid.  The source's `unreachable!` arm (a
`lexical_block_idx` that does not point at a lexical block) is modelled as
`false`; the theorems assume well-linked units. -/
def valid_at (u : CompUnit) (v : VariableDie) (pc : Nat) : Bool :=
  match v.lexical_block_idx with
  | some lb_idx =>
    match (u.entries.getD lb_idx default).die with
    | .lexicalBlock lb => lb.ranges.any fun r => r.low ≤ pc && pc ≤ r.high
    | _ => false
  | none => true

/-- The BFS of `find_variables`: a `VecDeque` seeded with the function's
children; each popped entry contributes itself when it is a variable valid
at `pc`, and enqueues its children.  Fuel bounds the traversal; the theorems
supply enough fuel for arenas whose child indices increase strictly. -/
def collectVars (u : CompUnit) (pc : Nat) : Nat → List Nat → List Nat → List Nat
  | 0, _, acc => acc.reverse
  | _ + 1, [], acc => acc.reverse
  | fuel + 1, idx :: queue, acc =>
    let entry := u.entries.getD idx default
    let acc' :=
      match entry.die with
      | .var v => if valid_at u v pc then idx :: acc else acc
      | _ => acc
    collectVars u pc fuel (queue ++ entry.node.children) acc'

/-- `ContextualDieRef::<FunctionDie>::find_variables`, returning the indices
of the collected variable entries. -/
def find_variables (u : CompUnit) (fnode : Node) (pc : Nat) (fuel : Nat) : List Nat :=
  collectVars u pc fuel fnode.children []

/-- Whether a DIE is a function entry. -/
def DieVariant.isFunc : DieVariant → Bool
  | .function _ => true
  | _ => false

/-- Index `j` of a unit's `die_ranges` names a function DIE whose range
contains `pc` (bounds inclusive, as in the source's comparison). -/
def coveringFunctionAt (u : CompUnit) (pc : Nat) (j : Nat) : Prop :=
  (u.entries.getD (u.die_ranges.getD j default).die_idx default).die.isFunc
      = true ∧
  (u.die_ranges.getD j default).range.low ≤ pc ∧
  pc ≤ (u.die_ranges.getD j default).range.high

/-- `r1` lies inside `r2`. -/
def containedIn (r1 r2 : Range) : Prop :=
  r2.low ≤ r1.low ∧ r1.high ≤ r2.high

instance (u : CompUnit) (pc j : Nat) : Decidable (coveringFunctionAt u pc j) := by
  unfold coveringFunctionAt
  infer_instance

instance (r1 r2 : Range) : Decidable (containedIn r1 r2) := by
  unfold containedIn
  infer_instance

/-- A one-function unit whose function range is `[0, 10]`; at `pc = 10`
the half-open range `[0, 10)` does not contain `pc` but the source's
inclusive comparison does. -/
def u4 : CompUnit :=
  { offset := some 0, ranges := [⟨0, 10⟩], die_ranges := [⟨⟨0, 10⟩, 0⟩],
    entries := [⟨.function ⟨0⟩, ⟨[]⟩⟩], entryOffsets := [] }

/-- Transitive reachability through `node.children` edges from a root set:
the candidates the `find_variables` BFS visits. -/
inductive ReachL (u : CompUnit) (roots : List Nat) : Nat → Prop where
  | base {i : Nat} : i ∈ roots → ReachL u roots i
  | step {p i : Nat} : ReachL u roots p →
      i ∈ (u.entries.getD p default).node.children → ReachL u roots i

/-- Fuel bound for the BFS over an arena of `N` entries whose child indices
increase strictly: each queue element `i` weighs `(N+1)^(N-i)`. -/
def bfsMeasure (N : Nat) (q : List Nat) : Nat :=
  (q.map fun i => (N + 1) ^ (N - i)).sum

/-- Entry `idx` is a variable DIE valid at `pc`. -/
def isVarValid (u : CompUnit) (pc idx : Nat) : Prop :=
  ∃ v, (u.entries.getD idx default).die = .var v ∧ valid_at u v pc = true

/-- Whether a DIE is a lexical block. -/
def DieVariant.isLexicalBlock : DieVariant → Bool
  | .lexicalBlock _ => true
  | _ => false

/-- The `lexical_block_idx` of a variable DIE, `none` for other DIEs. -/
def varBlockIdx : DieVariant → Option Nat
  | .var v => v.lexical_block_idx
  | _ => none

/-- The arena invariant behind the source's `unreachable!` in `valid_at`
(spec.md: a variable's `lexical_block_idx`, if present, refers to an
existing lexical block): entry `i`, if a variable with a block index,
points at a lexical block entry. -/
def linkedOk (u : CompUnit) (i : Nat) : Bool :=
  match varBlockIdx (u.entries.getD i default).die with
  | some lb_idx => ((u.entries.getD lb_idx default).die).isLexicalBlock
  | none => true

/-- Following the claim's words, for comparison with the source's
`valid_at`: a variable with a lexical block is valid iff one of the
block's ranges covers `pc`; one without is valid iff the containing
function's range `fr` covers `pc`. -/
def c5Valid (u : CompUnit) (fr : Range) (pc : Nat) (v : VariableDie) : Prop :=
  match v.lexical_block_idx with
  | some lb_idx =>
    ∃ lb, (u.entries.getD lb_idx default).die = .lexicalBlock lb ∧
      ∃ r ∈ lb.ranges, r.low ≤ pc ∧ pc ≤ r.high
  | none => fr.low ≤ pc ∧ pc ≤ fr.high

/-- A four-entry unit: a function (entry 0) with a blockless variable
(entry 1) and a lexical block (entry 2) over `[0, 10]` holding a second
variable (entry 3). -/
def u5 : CompUnit :=
  { offset := some 0, ranges := [⟨0, 100⟩],
    die_ranges := [⟨⟨0, 100⟩, 0⟩],
    entries :=
      [⟨.function ⟨0⟩, ⟨[1, 2]⟩⟩,
       ⟨.var ⟨0, none⟩, ⟨[]⟩⟩,
       ⟨.lexicalBlock ⟨[⟨0, 10⟩]⟩, ⟨[3]⟩⟩,
       ⟨.var ⟨1, some 2⟩, ⟨[]⟩⟩],
    entryOffsets := [] }

/-- Two parsed units, at `.debug_info` offsets 10 and 20, each holding one
entry at unit-local offset 0. -/
def uA : CompUnit :=
  { offset := some 10, ranges := [], die_ranges := [],
    entries := [⟨.other, ⟨[]⟩⟩], entryOffsets := [(0, 0)] }

def uB : CompUnit :=
  { offset := some 20, ranges := [], die_ranges := [],
    entries := [⟨.other, ⟨[]⟩⟩], entryOffsets := [(0, 0)] }

/-- `DieRef`: a unit-local or global (`.debug_info`-relative) DIE reference. -/
inductive DieRef where
  | unitRef (offset : Nat)
  | global (offset : Nat)
deriving Repr, DecidableEq

/-- `DebugeeContext::deref_die`: unit-local references go through the default
unit; global references binary-search the units by start offset and resolve
only on a miss strictly inside some unit (`Ok(_) | Err(0) ↦ None`). -/
def deref_die (units : List CompUnit) (default_unit : CompUnit) (r : DieRef) :
    Option Entry :=
  match r with
  | .unitRef off => findEntry default_unit off
  | .global off =>
    match binarySearchOpt (units.map (·.offset)) (some off) with
    | .found _ => none
    | .notFound 0 => none
    | .notFound (pos + 1) =>
      let unit := units.getD pos default
      findEntry unit (off - (unit.offset.getD 0))

end Dwarf

namespace Unwind

/-- Modelled from the spec: `DwarfRegisterMap` (the register map is not
under `src/`), an association of DWARF register numbers to 64-bit values
with `value` and `update` accessors. -/
def Regs := List (Nat × Nat)
deriving DecidableEq, Repr

/-- `DwarfRegisterMap::value`: lookup of a register, `None` on absence
(the source returns an error that callers treat through `weak_error!`). -/
def Regs.value : Regs → Nat → Option Nat
  | [], _ => none
  | (a, b) :: rest, r => if a = r then some b else Regs.value rest r

/-- `DwarfRegisterMap::update`: overwrite or insert a register value. -/
def Regs.update : Regs → Nat → Nat → Regs
  | [], r, v => [(r, v)]
  | (a, b) :: rest, r, v =>
    if a = r then (r, v) :: rest else (a, b) :: Regs.update rest r v

/-- gimli's `RegisterRule`; DWARF expressions are opaque identifiers
evaluated by the environment oracle. -/
inductive RegisterRule where
  | undefined
  | sameValue
  | offset (k : Int)
  | valOffset (k : Int)
  | register (r : Nat)
  | expression (e : Nat)
  | valExpression (e : Nat)
  | architectural
deriving Repr, DecidableEq

/-- The data of one frame description entry: the unwind table row for the
address, the CIE's return-address register, and the outcome of
`evaluate_cfa` (`none` models a fatal evaluation error). -/
structure FDE where
  row : List (Nat × RegisterRule)
  returnAddressRegister : Nat
  cfaResult : Option Nat
deriving Repr, DecidableEq

/-- Unwinder environment: the `.eh_frame` lookup and the process-state
oracles.  `fdeFor` returns `none` for `NoUnwindInfoForAddress`;
`readMem8` reads eight bytes of native-endian memory as one value;
`currentReg` reads the thread's current register file; `evalExpr`
evaluates a DWARF expression to a scalar; each returns `none` on failure
(the source wraps these reads in `weak_error!`). -/
structure Env where
  fdeFor : Nat → Option FDE
  readMem8 : Nat → Option Nat
  currentReg : Nat → Option Nat
  evalExpr : Nat → Option Nat
  funcNameAt : Nat → Option Nat
  prologStartAt : Nat → Option Nat
  mappingOffset : Nat
  initRegs : Regs

/-- `usize::wrapping_add` of a signed offset, on 64-bit words. -/
def wrapAdd (a : Nat) (k : Int) : Nat :=
  (a + (k.emod (2 ^ 64)).toNat) % 2 ^ 64

/-- Errors of the unwinder model; `outOfFuel` is an artifact of bounding
the frame loop, every other constructor embeds a fatal source error. -/
inductive UErr where
  | cfaFail
  | outOfFuel
deriving Repr, DecidableEq

/-- The register-rule body of `UnwindContext::new`: produce the caller's
value for one register, `none` meaning the register is omitted
(`Undefined`/`Architectural`) or its recovery failed (`weak_error!`). -/
def applyRule (env : Env) (snap : Regs) (cfa : Nat) (reg : Nat) :
    RegisterRule → Option Nat
  | .undefined => none
  | .sameValue => env.currentReg reg
  | .offset k => env.readMem8 (wrapAdd cfa k)
  | .valOffset k => some (wrapAdd cfa k)
  | .register r => snap.value r
  | .expression e => (env.evalExpr e).bind env.readMem8
  | .valExpression e => env.evalExpr e
  | .architectural => none

/-- The `filter_map … for_each(update)` chain of `UnwindContext::new`:
start from the incoming registers and update each register whose rule
produced a value. -/
def applyRowUpdates (env : Env) (snap : Regs) (cfa : Nat)
    (row : List (Nat × RegisterRule)) (start : Regs) : Regs :=
  row.foldl
    (fun acc p =>
      match applyRule env snap cfa p.1 p.2 with
      | none => acc
      | some v => acc.update p.1 v)
    start

/-- The per-frame unwind context: recovered registers, the CFA, and the
CIE's return-address register. -/
structure Ctx where
  registers : Regs
  cfa : Nat
  raReg : Nat
deriving Repr, DecidableEq

/-- `UnwindContext::new`: `Ok(None)` when no FDE covers the address, a
fatal error when the CFA rule fails, otherwise the context whose registers
are the incoming ones overridden by the rule results. -/
def newCtx (env : Env) (regs : Regs) (pc : Nat) : Except UErr (Option Ctx) :=
  let globalPc := pc - env.mappingOffset
  match env.fdeFor globalPc with
  | none => .ok none
  | some fde =>
    match fde.cfaResult with
    | none => .error .cfaFail
    | some cfa =>
      .ok (some ⟨applyRowUpdates env regs cfa fde.row regs, cfa,
                 fde.returnAddressRegister⟩)

/-- `UnwindContext::next`: seed the next frame with the recovered registers
and set register 7 (RSP) to the CFA. -/
def nextCtx (env : Env) (ctx : Ctx) (pc : Nat) : Except UErr (Option Ctx) :=
  newCtx env (ctx.registers.update 7 ctx.cfa) pc

/-- `UnwindContext::return_address`: the value of the CIE's return-address
register in the recovered register set. -/
def returnAddress (ctx : Ctx) : Option Nat :=
  ctx.registers.value ctx.raReg

/-- `FrameSpan { func_name, fn_start_ip, ip }` (names as identifiers). -/
structure FrameSpan where
  funcName : Option Nat
  fnStartIp : Option Nat
  ip : Nat
deriving Repr, DecidableEq

/-- The `FrameSpan` built for an instruction pointer: function name and
prologue start come from the DWARF lookups, modelled by oracles; the
prologue address is relocated by the mapping offset. -/
def spanFor (env : Env) (pc : Nat) : FrameSpan :=
  ⟨env.funcNameAt (pc - env.mappingOffset),
   (env.prologStartAt (pc - env.mappingOffset)).map (· + env.mappingOffset),
   pc⟩

/-- The `while let Some(return_addr)` loop of `DwarfUnwinder::unwind`:
stop when the return-address register is absent, step to the caller frame,
stop when no FDE covers it, else push its span and continue. -/
def unwindLoop (env : Env) : Nat → Ctx → List FrameSpan →
    Except UErr (List FrameSpan)
  | 0, _, _ => .error .outOfFuel
  | fuel + 1, ctx, acc =>
    match returnAddress ctx with
    | none => .ok acc
    | some ra =>
      match nextCtx env ctx ra with
      | .error e => .error e
      | .ok none => .ok acc
      | .ok (some ctx') => unwindLoop env fuel ctx' (acc ++ [spanFor env ra])

/-- `DwarfUnwinder::unwind`: empty backtrace when no FDE covers the start,
else the start frame followed by the recovered caller frames. -/
def unwind (env : Env) (fuel : Nat) (pc : Nat) : Except UErr (List FrameSpan) :=
  match newCtx env env.initRegs pc with
  | .error e => .error e
  | .ok none => .ok []
  | .ok (some ctx) => unwindLoop env fuel ctx [spanFor env pc]

/-- The register-rule table exactly as the specification words it
(`Offset(k)`: 8 bytes of native-endian memory at `CFA + k`; `ValOffset(k)`:
the literal `CFA + k`; `SameValue`: the current thread's register;
`Register(r)`: the previous frame's register `r`; `Expression(e)`: an
8-byte memory read at the evaluated scalar; `ValExpression(e)`: the
evaluated scalar; `Undefined` and `Architectural` omitted), for comparison
with `applyRule`. -/
def applyRuleSpec (env : Env) (snap : Regs) (cfa : Nat) (reg : Nat) :
    RegisterRule → Option Nat
  | .undefined => none
  | .architectural => none
  | .sameValue => env.currentReg reg
  | .offset k => env.readMem8 (wrapAdd cfa k)
  | .valOffset k => some (wrapAdd cfa k)
  | .register r => snap.value r
  | .expression e =>
    match env.evalExpr e with
    | none => none
    | some addr => env.readMem8 addr
  | .valExpression e => env.evalExpr e

/-- A concrete environment: one FDE at global pc 100 (no register rules,
return-address register 16, CFA 500), nothing anywhere else; the thread's
register 16 holds 200, so the return address leads outside the covered
area and the backtrace has exactly the start frame. -/
def envC6 : Env :=
  { fdeFor := fun gpc =>
      if gpc = 100 then some ⟨[], 16, some 500⟩ else none,
    readMem8 := fun _ => none,
    currentReg := fun _ => none,
    evalExpr := fun _ => none,
    funcNameAt := fun _ => none,
    prologStartAt := fun _ => none,
    mappingOffset := 0,
    initRegs := [(16, 200)] }

/-- A concrete environment whose current-register oracle always fails, so
every `SameValue` rule fails to recover its register. -/
def envC7 : Env :=
  { fdeFor := fun _ => none,
    readMem8 := fun _ => none,
    currentReg := fun _ => none,
    evalExpr := fun _ => none,
    funcNameAt := fun _ => none,
    prologStartAt := fun _ => none,
    mappingOffset := 0,
    initRegs := [] }

end Unwind

namespace Tracer

/-- Signal and siginfo constants of `code.rs` / libc (Linux x86-64). -/
def SIGTRAP : Int := 5

def TRAP_BRKPT : Int := 1

def TRAP_TRACE : Int := 2

def SI_KERNEL : Int := 128

def PTRACE_EVENT_CLONE : Int := 3

def PTRACE_EVENT_EXEC : Int := 4

def PTRACE_EVENT_EXIT : Int := 6

def PTRACE_EVENT_STOP : Int := 128

/-- `tracee::StopType`. -/
inductive StopType where
  | interrupt
  | signalStop (sig : Int)
deriving Repr, DecidableEq

/-- `tracee::TraceeStatus` (modelled from the spec:
`status ∈ {Running, Stopped(Interrupt), Stopped(SignalStop(sig))}`;
`tracee.rs` is not under `src/`). -/
inductive TraceeStatus where
  | running
  | stopped (t : StopType)
deriving Repr, DecidableEq

/-- A tracee record: thread id and status. -/
structure Tracee where
  pid : Int
  status : TraceeStatus
deriving Repr, DecidableEq

/-- `tracer::StopReason`. -/
inductive StopReason where
  | debugeeExit (code : Int)
  | debugeeStart
  | breakpoint (pid : Int) (addr : Nat)
  | signalStop (pid : Int) (sig : Int)
  | noSuchProcess (pid : Int)
deriving Repr, DecidableEq

/-- Modelled from the spec: the breakpoint fields the tracer consults
(`breakpoint.rs` is not under `src/`): relocated address, owning thread,
enabled and temporary flags. -/
structure Breakpoint where
  addr : Nat
  pid : Int
  enabled : Bool
  temporary : Bool
deriving Repr, DecidableEq

instance : Inhabited Breakpoint := ⟨⟨0, 0, false, false⟩⟩

/-- `tracer::TraceContext`: the breakpoint snapshot passed to `resume`. -/
structure TraceContext where
  breakpoints : List Breakpoint
deriving Repr, DecidableEq

/-- A wait status delivered by the kernel, together with the oracles the
tracer reads at that stop: `info` is the result of `getsiginfo` (`none`
models `ESRCH`), `pcReg` the program counter at the stop, and for
`ptraceEvent` the field `msg` carries the `PTRACE_GETEVENTMSG` payload. -/
inductive Ev where
  | exited (pid : Int) (code : Int)
  | ptraceEvent (pid : Int) (code : Int) (msg : Int)
  | stopped (pid : Int) (sig : Int) (info : Option Int) (pcReg : Nat)
  | signaled (pid : Int)
  | other
deriving Repr, DecidableEq

/-- Ghost log of tracer side effects on the debuggee, recorded to state
the step-over-breakpoint behaviour. -/
inductive GhostAction where
  | disableBp (addr : Nat)
  | enableBp (addr : Nat)
  | step (pid : Int)
deriving Repr, DecidableEq

/-- The tracer state: the tracee table with focus (the `TraceeCtl`,
modelled from the spec since `tracee.rs` is not under `src/`), the signal
queue and group-stop guard of `Tracer`, plus the oracle state: the pending
wait statuses (`events`), the threads for which `PTRACE_INTERRUPT` fails
with `ESRCH` (`dead`), and the ghost action log. -/
structure St where
  procPid : Int
  tracees : List Tracee
  focus : Option Int
  signalQueue : List (Int × Int)
  guard : Bool
  events : List Ev
  dead : List Int
  log : List GhostAction
deriving Repr, DecidableEq

/-- Errors of the model: `outOfFuel` is an artifact of bounding recursion;
the rest embed source panics (`unwrap`, `todo!`, `unreachable!`,
`tracee_ensure`) and `bail!` exits. -/
inductive Err where
  | outOfFuel
  | waitFail
  | panicNone
  | trapTodo
  | unexpectedTrapCode
  | ensureFail
  | exitInGroupStop (code : Int)
  | startTwice
  | esrch
deriving Repr, DecidableEq

/-- `TraceeCtl::tracee`: the record with the given pid. -/
def traceeFind (s : St) (pid : Int) : Option Tracee :=
  s.tracees.find? fun t => t.pid == pid

/-- Set the status of the (first) record with the given pid. -/
def setStatusFirst : List Tracee → Int → TraceeStatus → List Tracee
  | [], _, _ => []
  | t :: ts, pid, st =>
    if t.pid == pid then { t with status := st } :: ts
    else t :: setStatusFirst ts pid st

/-- `Tracee::set_stop` through `tracee_mut`. -/
def St.setStop (s : St) (pid : Int) (st : StopType) : St :=
  { s with tracees := setStatusFirst s.tracees pid (.stopped st) }

/-- `tracee_ensure_mut(pid).set_stop(st)`: panics (error) when absent. -/
def St.ensureSetStop (s : St) (pid : Int) (st : StopType) : Except Err St :=
  match traceeFind s pid with
  | none => .error .ensureFail
  | some _ => .ok (s.setStop pid st)

/-- Modelled from the spec: `TraceeCtl::add` registers a thread; per the
spec's data-model invariant there is exactly one record per thread, and a
newly registered thread is in event-stop, recorded `Stopped(Interrupt)`. -/
def St.add (s : St) (pid : Int) : St :=
  match traceeFind s pid with
  | some _ => s
  | none => { s with tracees := s.tracees ++ [⟨pid, .stopped .interrupt⟩] }

/-- `TraceeCtl::remove`. -/
def St.remove (s : St) (pid : Int) : St :=
  { s with tracees := s.tracees.filter fun t => !(t.pid == pid) }

/-- `TraceeCtl::set_tracee_to_focus`. -/
def St.setFocus (s : St) (pid : Int) : St :=
  { s with focus := some pid }

/-- Append to the pending-signal queue. -/
def St.pushSignal (s : St) (p : Int × Int) : St :=
  { s with signalQueue := s.signalQueue ++ [p] }

/-- Record a ghost action. -/
def St.logAct (s : St) (a : GhostAction) : St :=
  { s with log := s.log ++ [a] }

/-- Modelled from the spec: `TraceeCtl::cont_stopped` continues every
stopped tracee with no signal: all stopped records become `Running`. -/
def contStopped (s : St) : St :=
  { s with
    tracees := s.tracees.map fun t =>
      match t.status with
      | .stopped _ => { t with status := .running }
      | _ => t }

/-- Modelled from the spec: `TraceeCtl::cont_stopped_ex` delivers the head
signal to its thread and continues the other stopped tracees with no
signal, except threads with further queued signals. -/
def contStoppedEx (s : St) (req : Int × Int) (exclude : List Int) : St :=
  { s with
    tracees := s.tracees.map fun t =>
      match t.status with
      | .stopped _ =>
        if t.pid == req.1 || !(exclude.contains t.pid) then
          { t with status := .running }
        else t
      | _ => t }

/-- `waitpid` / `Tracee::wait_one`: consume the next wait status from the
kernel oracle. -/
def popEvent (s : St) : Except Err (Ev × St) :=
  match s.events with
  | [] => .error .waitFail
  | e :: rest => .ok (e, { s with events := rest })

/-- Whether a status is `Stopped(_)`. -/
def TraceeStatus.isStoppedB : TraceeStatus → Bool
  | .running => false
  | .stopped _ => true

/-- `Tracee::is_stopped`. -/
def Tracee.isStopped (t : Tracee) : Bool :=
  t.status.isStoppedB

/-- Every tracee record is in some `Stopped(_)` state. -/
def allStoppedB (s : St) : Bool :=
  s.tracees.all fun t => t.isStopped

/-- The loop condition of `group_stop_interrupt`:
`matches!(wait, WaitStatus::PtraceEvent(_, _, libc::PTRACE_EVENT_STOP))`. -/
def isEventStop : Ev → Bool
  | .ptraceEvent _ code _ => code == PTRACE_EVENT_STOP
  | _ => false

/-- `matches!(WaitStatus::Stopped, _status)` in `single_step`: `_status`
is a binding pattern, so the macro matches any scrutinee and the check is
constantly `true` (the literal-vs-binding slip in the source). -/
def matchesStoppedBinding (_w : Ev) : Bool := true

/-- `matches!(WaitStatus::PtraceEvent(pid, SIGSTOP, PTRACE_EVENT_STOP),
_status)` in `single_step`: again a binding pattern, constantly `true`. -/
def matchesEventStopBinding (_w : Ev) : Bool := true

/-- `sys::ptrace::getsiginfo(pid)?` inside `single_step`: fatal on `ESRCH`
(modelled by a `stopped` status carrying no siginfo), else the stop's
`si_code` (0 for other statuses, unused by the always-breaking loop). -/
def getsiginfoAfterWait : Ev → Except Err Int
  | .stopped _ _ none _ => .error .esrch
  | .stopped _ _ (some si) _ => .ok si
  | _ => .ok 0

mutual

/-- `Tracer::apply_new_status`: dispatch one wait status; returns the stop
reason when the debuggee stop must be reported. -/
def applyNewStatus : Nat → TraceContext → Ev → St → Except Err (Option StopReason × St)
  | 0, _, _, _ => .error .outOfFuel
  | fuel + 1, ctx, ev, s =>
    match ev with
    | .exited pid code =>
      let s := s.remove pid
      if pid = s.procPid then .ok (some (.debugeeExit code), s)
      else .ok (none, s)
    | .ptraceEvent pid code msg =>
      if code = PTRACE_EVENT_EXEC then
        .ok (some .debugeeStart, s.add pid)
      else if code = PTRACE_EVENT_CLONE then do
        let s ← s.ensureSetStop pid .interrupt
        match traceeFind s msg with
        | none => do
          let s := s.add msg
          let (_, s) ← popEvent s
          .ok (none, s)
        | some _ => .ok (none, s)
      else if code = PTRACE_EVENT_STOP then
        match traceeFind s pid with
        | some _ => .ok (none, s.setStop pid .interrupt)
        | none => .ok (none, s.add pid)
      else if code = PTRACE_EVENT_EXIT then
        .ok (none, s.remove pid)
      else
        .ok (none, s)
    | .stopped pid sig info pcReg =>
      match info with
      | none => .ok (some (.noSuchProcess pid), s)
      | some si =>
        if sig = SIGTRAP then
          if si = TRAP_TRACE then .error .trapTodo
          else if si = TRAP_BRKPT ∨ si = SI_KERNEL then
            match traceeFind s pid with
            | none => .error .ensureFail
            | some _ =>
              let current_pc := pcReg - 1
              if ctx.breakpoints.any (·.temporary) then
                match ctx.breakpoints.find? (fun b => b.addr == current_pc) with
                | none => .error .panicNone
                | some brkpt =>
                  if brkpt.temporary && pid == brkpt.pid then do
                    let s := s.setFocus pid
                    let s ← s.ensureSetStop pid .interrupt
                    let s ← groupStopInterrupt fuel ctx pid s
                    .ok (some (.breakpoint pid current_pc), s)
                  else
                    match traceeFind s pid with
                    | none => .error .ensureFail
                    | some tracee => do
                      let s ←
                        if brkpt.enabled then do
                          let s := s.logAct (.disableBp brkpt.addr)
                          let s ← singleStep fuel ctx tracee.pid s
                          pure (s.logAct (.enableBp brkpt.addr))
                        else pure s
                      let s ← s.ensureSetStop pid .interrupt
                      .ok (none, s)
              else do
                let s := s.setFocus pid
                let s ← s.ensureSetStop pid .interrupt
                let s ← groupStopInterrupt fuel ctx pid s
                .ok (some (.breakpoint pid current_pc), s)
          else .error .unexpectedTrapCode
        else do
          let s := s.pushSignal (pid, sig)
          let s ← s.ensureSetStop pid (.signalStop sig)
          let s ← groupStopInterrupt fuel ctx pid s
          .ok (some (.signalStop pid sig), s)
    | .signaled _ => .ok (none, s)
    | .other => .ok (none, s)

/-- `Tracer::group_stop_interrupt`: reentrancy-guarded; when another
tracee exists, two rounds over the snapshot interrupt and await every
running tracee. -/
def groupStopInterrupt : Nat → TraceContext → Int → St → Except Err St
  | 0, _, _, _ => .error .outOfFuel
  | fuel + 1, ctx, initiator, s =>
    if s.guard then .ok s
    else
      let s := { s with guard := true }
      if !(s.tracees.any fun t => !(t.pid == initiator)) then
        .ok { s with guard := false }
      else do
        let s ← gsRound fuel ctx s (s.tracees.map (·.pid))
        let s ← gsRound fuel ctx s (s.tracees.map (·.pid))
        .ok { s with guard := false }

/-- One round of `group_stop_interrupt` over a snapshot of thread ids:
skip vanished or stopped tracees, mark `ESRCH` ones stopped, else
interrupt, wait and funnel events until the tracee stops; afterwards mark
it stopped if needed. -/
def gsRound : Nat → TraceContext → St → List Int → Except Err St
  | 0, _, _, _ => .error .outOfFuel
  | _ + 1, _, s, [] => .ok s
  | fuel + 1, ctx, s, tid :: rest =>
    match traceeFind s tid with
    | none => gsRound fuel ctx s rest
    | some tracee =>
      if tracee.isStopped then gsRound fuel ctx s rest
      else if s.dead.contains tid then
        gsRound fuel ctx (s.setStop tid .interrupt) rest
      else do
        let (w, s) ← popEvent s
        let s ← gsInner fuel ctx tid w s
        let s :=
          match traceeFind s tid with
          | some t => if !t.isStopped then s.setStop tid .interrupt else s
          | none => s
        gsRound fuel ctx s rest

/-- The inner wait loop of `group_stop_interrupt`: until the wait status is
a `PTRACE_EVENT_STOP`, funnel it through `apply_new_status` and break on
this tracee's breakpoint, a signal-stop, a no-such-process or a confirmed
interrupt; fatal on `DebugeeExit`. -/
def gsInner : Nat → TraceContext → Int → Ev → St → Except Err St
  | 0, _, _, _, _ => .error .outOfFuel
  | fuel + 1, ctx, tid, w, s =>
    if isEventStop w then .ok s
    else do
      let (stop, s) ← applyNewStatus fuel ctx w s
      match stop with
      | some (.breakpoint pid _) =>
        if pid == tid then .ok s else gsReload fuel ctx tid s
      | some (.debugeeExit code) => .error (.exitInGroupStop code)
      | some .debugeeStart => .error .startTwice
      | some (.signalStop _ _) => .ok s
      | some (.noSuchProcess _) => .ok s
      | none => gsReload fuel ctx tid s

/-- The tail of the inner wait loop: reload the tracee (break when it
vanished or reached `Stopped(Interrupt)`), else wait again. -/
def gsReload : Nat → TraceContext → Int → St → Except Err St
  | 0, _, _, _ => .error .outOfFuel
  | fuel + 1, ctx, tid, s =>
    match traceeFind s tid with
    | none => .ok s
    | some t =>
      if t.isStopped && (t.status == .stopped .interrupt) then .ok s
      else do
        let (w, s) ← popEvent s
        gsInner fuel ctx tid w s

/-- `Tracer::single_step`: issue `PTRACE_SINGLESTEP` then run the wait
loop. -/
def singleStep : Nat → TraceContext → Int → St → Except Err St
  | 0, _, _, _ => .error .outOfFuel
  | fuel + 1, ctx, pid, s => stepLoop fuel ctx pid (s.logAct (.step pid))

/-- The wait loop of `single_step`, embedded with the source's `matches!`
expressions: `in_trap` tests only the siginfo code and `is_interrupt` is
constantly `true`, so the loop exits on the first wait status and the
`apply_new_status` arm below is unreachable. -/
def stepLoop : Nat → TraceContext → Int → St → Except Err St
  | 0, _, _, _ => .error .outOfFuel
  | fuel + 1, ctx, pid, s =>
    match traceeFind s pid with
    | none => .error .ensureFail
    | some _ => do
      let (w, s) ← popEvent s
      let si ← getsiginfoAfterWait w
      if matchesStoppedBinding w && (si == TRAP_TRACE) then .ok s
      else if matchesEventStopBinding w then .ok s
      else do
        let (stop, s) ← applyNewStatus fuel ctx w s
        match stop with
        | some (.breakpoint _ _) => .ok s
        | some (.debugeeExit code) => .error (.exitInGroupStop code)
        | some .debugeeStart => .error .startTwice
        | some (.signalStop _ _) => .ok s
        | some (.noSuchProcess _) => .ok s
        | none => stepLoop fuel ctx pid s

/-- `Tracer::resume`: deliver queued signals or continue all stopped
tracees, wait, dispatch, and loop until a stop reason arises. -/
def resume : Nat → TraceContext → St → Except Err (StopReason × St)
  | 0, _, _ => .error .outOfFuel
  | fuel + 1, ctx, s =>
    match s.signalQueue with
    | req :: restQ =>
      let s := contStoppedEx { s with signalQueue := restQ } req (restQ.map (·.1))
      match restQ with
      | (pid, sign) :: _ => do
        let s ← groupStopInterrupt fuel ctx (-1) s
        .ok (.signalStop pid sign, s)
      | [] => do
        let (ev, s) ← popEvent s
        let (stop, s) ← applyNewStatus fuel ctx ev s
        match stop with
        | some r => .ok (r, s)
        | none => resume fuel ctx s
    | [] => do
      let s := contStopped s
      let (ev, s) ← popEvent s
      let (stop, s) ← applyNewStatus fuel ctx ev s
      match stop with
      | some r => .ok (r, s)
      | none => resume fuel ctx s

end

/-- `p` is stopped-or-absent: the tracee record with pid `p`, if any, is in
some `Stopped(_)` state. -/
def soaB (s : St) (p : Int) : Bool :=
  match traceeFind s p with
  | none => true
  | some t => t.isStopped

/-- A transition never revives a thread: every stopped-or-absent pid stays
stopped-or-absent. -/
def Mono (s s' : St) : Prop :=
  ∀ p, soaB s p = true → soaB s' p = true

/-- Well-formed tracee table: one record per pid (the spec's data-model
invariant) and kernel thread ids are positive. -/
def WF (s : St) : Prop :=
  (s.tracees.map (·.pid)).Nodup ∧ ∀ t ∈ s.tracees, 0 < t.pid

/-- Wait statuses produced by the kernel carry positive thread ids. -/
def EvOK : Ev → Prop
  | .exited pid _ => 0 < pid
  | .ptraceEvent pid _ msg => 0 < pid ∧ 0 < msg
  | .stopped pid _ _ _ => 0 < pid
  | .signaled pid => 0 < pid
  | .other => True

/-- All pending wait statuses are kernel-shaped. -/
def EvWF (s : St) : Prop :=
  ∀ e ∈ s.events, EvOK e

instance : DecidablePred EvOK := fun e => by
  cases e <;> dsimp [EvOK] <;> infer_instance

instance (s : St) : Decidable (WF s) := by
  unfold WF; infer_instance

instance (s : St) : Decidable (EvWF s) := by
  unfold EvWF; infer_instance

instance {ε α : Type} [DecidableEq ε] [DecidableEq α] :
    DecidableEq (Except ε α) := fun a b =>
  match a, b with
  | .error x, .error y =>
    if h : x = y then .isTrue (congrArg Except.error h)
    else .isFalse fun hc => h (Except.error.inj hc)
  | .ok x, .ok y =>
    if h : x = y then .isTrue (congrArg Except.ok h)
    else .isFalse fun hc => h (Except.ok.inj hc)
  | .error _, .ok _ => .isFalse fun hc => Except.noConfusion hc
  | .ok _, .error _ => .isFalse fun hc => Except.noConfusion hc

/-- Project a `resume` outcome to the stop reason and whether every tracee
record ended stopped. -/
def stopAndAll (x : Except Err (StopReason × St)) : Option (StopReason × Bool) :=
  match x with
  | .ok (r, s) => some (r, allStoppedB s)
  | .error _ => none

/-- Project a `resume` outcome to the stop reason and the focus tracee. -/
def stopAndFocus (x : Except Err (StopReason × St)) :
    Option (StopReason × Option Int) :=
  match x with
  | .ok (r, s) => some (r, s.focus)
  | .error _ => none

/-- An empty breakpoint snapshot. -/
def ctx0 : TraceContext := ⟨[]⟩

/-- Single-tracee debuggee about to report a breakpoint at 100. -/
def stW : St :=
  ⟨1, [⟨1, .stopped .interrupt⟩], none, [], false,
   [.stopped 1 5 (some 1) 101], [], []⟩

/-- Two stopped tracees; the next wait status reports a SIGTRAP stop whose
`getsiginfo` fails with `ESRCH`. -/
def stCexA : St :=
  ⟨1, [⟨1, .stopped .interrupt⟩, ⟨2, .stopped .interrupt⟩], none, [], false,
   [.stopped 1 5 none 0], [], []⟩

/-- Two stopped tracees; thread 1 hits a breakpoint and, while the tracer
group-stops thread 2, thread 2 reports its own breakpoint hit. -/
def stCexB : St :=
  ⟨1, [⟨1, .stopped .interrupt⟩, ⟨2, .stopped .interrupt⟩], none, [], false,
   [.stopped 1 5 (some 1) 101, .stopped 2 5 (some 1) 201], [], []⟩

/-- One enabled, non-temporary breakpoint at 100 owned by thread 1. -/
def ctxC2 : TraceContext := ⟨[⟨100, 1, true, false⟩]⟩

/-- Two stopped tracees, no pending wait statuses. -/
def stC2 : St :=
  ⟨1, [⟨1, .stopped .interrupt⟩, ⟨2, .stopped .interrupt⟩], none, [], false,
   [], [], []⟩

/-- As `ctxC2` plus a temporary breakpoint elsewhere, so that the
step-over-breakpoint path is reachable. -/
def ctxC2W : TraceContext := ⟨[⟨100, 1, true, false⟩, ⟨50, 1, true, true⟩]⟩

/-- Two stopped tracees and one pending wait status for the single-step. -/
def stC2W : St :=
  ⟨1, [⟨1, .stopped .interrupt⟩, ⟨2, .stopped .interrupt⟩], none, [], false,
   [.other], [], []⟩

/-- A running tracee whose next wait status is a `SIGUSR1` stop with
`si_code = 0`: none of the claimed step-complete conditions hold for it. -/
def stC3 : St :=
  ⟨1, [⟨7, .running⟩], none, [], false, [.stopped 7 10 (some 0) 0], [], []⟩

/-- The state in which `resume` run from `stW` reports its breakpoint. -/
def stWend : St :=
  ⟨1, [⟨1, .stopped .interrupt⟩], some 1, [], false, [], [], []⟩

/-- The state in which the step-over-breakpoint run from `stC2W` ends. -/
def stC2WEnd : St :=
  ⟨1, [⟨1, .stopped .interrupt⟩, ⟨2, .stopped .interrupt⟩], none, [], false,
   [], [], [.disableBp 100, .step 2, .enableBp 100]⟩

/-- Project an `apply_new_status` outcome to the returned stop reason. -/
def stopOnly (x : Except Err (Option StopReason × St)) :
    Option (Option StopReason) :=
  match x with
  | .ok (r, _) => some r
  | .error _ => none

/-- Frame conditions common to every tracer transition: no thread is
revived, and the group-stop guard, process pid and dead set are restored. -/
def Pres (s s' : St) : Prop :=
  Mono s s' ∧ s'.guard = s.guard ∧ s'.procPid = s.procPid ∧ s'.dead = s.dead

/-- Transitions preserve the table and event-stream invariants. -/
def InvPres (s s' : St) : Prop :=
  WF s ∧ EvWF s → WF s' ∧ EvWF s'

/-- The group-stop outcome of a reported stop: when the reason is a
breakpoint or a signal-stop, every tracee record ended stopped. -/
def StopPost (r : Option StopReason) (s' : St) : Prop :=
  (∀ p a, r = some (.breakpoint p a) → allStoppedB s' = true) ∧
  (∀ p g, r = some (.signalStop p g) → allStoppedB s' = true)

/-- Induction bundle for `applyNewStatus` at a given fuel. -/
def ApplyOK (fuel : Nat) : Prop :=
  ∀ ctx ev s r s', applyNewStatus fuel ctx ev s = .ok (r, s') →
    Pres s s' ∧ (EvOK ev → InvPres s s') ∧
    (s.guard = false → WF s → EvWF s → StopPost r s')

/-- Induction bundle for `groupStopInterrupt` at a given fuel. -/
def GroupOK (fuel : Nat) : Prop :=
  ∀ ctx init s s', groupStopInterrupt fuel ctx init s = .ok s' →
    Pres s s' ∧ InvPres s s' ∧
    (s.guard = false → WF s → EvWF s → (init = -1 ∨ soaB s init = true) →
      allStoppedB s' = true)

/-- Induction bundle for `gsRound` at a given fuel. -/
def RoundOK (fuel : Nat) : Prop :=
  ∀ ctx s pids s', gsRound fuel ctx s pids = .ok s' →
    Pres s s' ∧ InvPres s s' ∧ ∀ p ∈ pids, soaB s' p = true

/-- Induction bundle for `gsInner` at a given fuel. -/
def InnerOK (fuel : Nat) : Prop :=
  ∀ ctx tid w s s', gsInner fuel ctx tid w s = .ok s' →
    Pres s s' ∧ (EvOK w → InvPres s s')

/-- Induction bundle for `gsReload` at a given fuel. -/
def ReloadOK (fuel : Nat) : Prop :=
  ∀ ctx tid s s', gsReload fuel ctx tid s = .ok s' →
    Pres s s' ∧ InvPres s s'

/-- Induction bundle for `singleStep` at a given fuel. -/
def StepOK (fuel : Nat) : Prop :=
  ∀ ctx pid s s', singleStep fuel ctx pid s = .ok s' →
    Pres s s' ∧ InvPres s s'

/-- Induction bundle for `stepLoop` at a given fuel. -/
def StepLoopOK (fuel : Nat) : Prop :=
  ∀ ctx pid s s', stepLoop fuel ctx pid s = .ok s' →
    Pres s s' ∧ InvPres s s'

end Tracer

namespace Tracer

theorem setStatusFirst_map_pid (ts : List Tracee) (q : Int) (st : TraceeStatus) :
    (setStatusFirst ts q st).map (·.pid) = ts.map (·.pid) := by
  induction ts with
  | nil => rfl
  | cons t ts ih =>
    by_cases h : t.pid = q <;> simp [setStatusFirst, h, ih]

theorem findPid_setStatusFirst_ne (ts : List Tracee) (q : Int)
    (st : TraceeStatus) (p : Int) (hpq : p ≠ q) :
    (setStatusFirst ts q st).find? (fun t => t.pid == p)
      = ts.find? (fun t => t.pid == p) := by
  induction ts with
  | nil => rfl
  | cons t ts ih =>
    simp only [setStatusFirst]
    by_cases h : t.pid = q
    · have h2 : ¬ (t.pid = p) := by rw [h]; exact fun hc => hpq hc.symm
      rw [if_pos (by simpa using h)]
      rw [List.find?_cons_of_neg _ (by simpa using h2),
        List.find?_cons_of_neg _ (by simpa using h2)]
    · rw [if_neg (by simpa using h)]
      by_cases h2 : t.pid = p
      · rw [List.find?_cons_of_pos _ (by simpa using h2),
          List.find?_cons_of_pos _ (by simpa using h2)]
      · rw [List.find?_cons_of_neg _ (by simpa using h2),
          List.find?_cons_of_neg _ (by simpa using h2)]
        exact ih

theorem findPid_setStatusFirst_stopped (ts : List Tracee) (q : Int)
    (st : StopType) :
    ∀ u, (setStatusFirst ts q (.stopped st)).find? (fun t => t.pid == q)
        = some u → u.isStopped = true := by
  induction ts with
  | nil => intro u h; simp [setStatusFirst, List.find?] at h
  | cons t ts ih =>
    intro u h
    simp only [setStatusFirst] at h
    by_cases hq : t.pid = q
    · rw [if_pos (by simpa using hq)] at h
      rw [List.find?_cons_of_pos _ (by simpa using hq)] at h
      cases h
      rfl
    · rw [if_neg (by simpa using hq)] at h
      rw [List.find?_cons_of_neg _ (by simpa using hq)] at h
      exact ih u h

theorem traceeFind_setStop_ne (s : St) (q : Int) (st : StopType) (p : Int)
    (hpq : p ≠ q) :
    traceeFind (s.setStop q st) p = traceeFind s p :=
  findPid_setStatusFirst_ne s.tracees q (.stopped st) p hpq

theorem soaB_setStop_self (s : St) (q : Int) (st : StopType) :
    soaB (s.setStop q st) q = true := by
  unfold soaB
  cases h : traceeFind (s.setStop q st) q with
  | none => rfl
  | some u =>
    exact findPid_setStatusFirst_stopped s.tracees q st u h

theorem soaB_setStop (s : St) (q : Int) (st : StopType) (p : Int)
    (h : soaB s p = true) : soaB (s.setStop q st) p = true := by
  by_cases hpq : p = q
  · subst hpq; exact soaB_setStop_self s p st
  · unfold soaB
    rw [traceeFind_setStop_ne s q st p hpq]
    exact h

theorem traceeFind_eq_none_iff (s : St) (q : Int) :
    traceeFind s q = none ↔ ∀ t ∈ s.tracees, t.pid ≠ q := by
  unfold traceeFind
  rw [List.find?_eq_none]
  constructor
  · intro h t ht; have := h t ht; simpa using this
  · intro h t ht; simpa using h t ht

theorem findPid_append_ne (ts : List Tracee) (u : Tracee) (p : Int)
    (hne : u.pid ≠ p) :
    (ts ++ [u]).find? (fun t => t.pid == p) = ts.find? (fun t => t.pid == p) := by
  induction ts with
  | nil =>
    show List.find? _ [u] = none
    rw [List.find?_cons_of_neg _ (by simpa using hne)]
    rfl
  | cons t ts ih =>
    rw [List.cons_append]
    by_cases h : t.pid = p
    · rw [List.find?_cons_of_pos _ (by simpa using h),
        List.find?_cons_of_pos _ (by simpa using h)]
    · rw [List.find?_cons_of_neg _ (by simpa using h),
        List.find?_cons_of_neg _ (by simpa using h)]
      exact ih

theorem traceeFind_add_ne (s : St) (q : Int) (p : Int) (hpq : p ≠ q) :
    traceeFind (s.add q) p = traceeFind s p := by
  unfold St.add
  cases hf : traceeFind s q with
  | some t => rfl
  | none =>
    exact findPid_append_ne s.tracees ⟨q, .stopped .interrupt⟩ p
      fun hc => hpq hc.symm

theorem findPid_append_self_of_absent (ts : List Tracee) (u : Tracee)
    (habs : ∀ t ∈ ts, t.pid ≠ u.pid) :
    (ts ++ [u]).find? (fun t => t.pid == u.pid) = some u := by
  induction ts with
  | nil =>
    show List.find? _ [u] = some u
    rw [List.find?_cons_of_pos _ (by simp)]
  | cons t ts ih =>
    have hne : t.pid ≠ u.pid := habs t (by simp)
    rw [List.cons_append, List.find?_cons_of_neg _ (by simpa using hne)]
    exact ih fun v hv => habs v (by simp [hv])

theorem traceeFind_add_none (s : St) (q : Int) (hf : traceeFind s q = none) :
    traceeFind (s.add q) q = some ⟨q, .stopped .interrupt⟩ := by
  unfold St.add
  rw [hf]
  exact findPid_append_self_of_absent s.tracees ⟨q, .stopped .interrupt⟩
    ((traceeFind_eq_none_iff s q).mp hf)

theorem soaB_add_of_none (s : St) (q : Int) (hf : traceeFind s q = none) :
    soaB (s.add q) q = true := by
  unfold soaB
  rw [traceeFind_add_none s q hf]
  rfl

theorem soaB_add (s : St) (q : Int) (p : Int) (h : soaB s p = true) :
    soaB (s.add q) p = true := by
  by_cases hpq : p = q
  · subst hpq
    cases hf : traceeFind s p with
    | some t =>
      unfold St.add
      rw [hf]
      exact h
    | none => exact soaB_add_of_none s p hf
  · unfold soaB
    rw [traceeFind_add_ne s q p hpq]
    exact h

theorem findPid_filter_ne (ts : List Tracee) (q : Int) (p : Int)
    (hpq : p ≠ q) :
    (ts.filter fun t => !(t.pid == q)).find? (fun t => t.pid == p)
      = ts.find? (fun t => t.pid == p) := by
  induction ts with
  | nil => rfl
  | cons t ts ih =>
    rw [List.filter_cons]
    by_cases h : t.pid = q
    · have h2 : ¬ (t.pid = p) := by rw [h]; exact fun hc => hpq hc.symm
      rw [if_neg (by simpa using h), List.find?_cons_of_neg _ (by simpa using h2)]
      exact ih
    · rw [if_pos (by simpa using h)]
      by_cases h2 : t.pid = p
      · rw [List.find?_cons_of_pos _ (by simpa using h2),
          List.find?_cons_of_pos _ (by simpa using h2)]
      · rw [List.find?_cons_of_neg _ (by simpa using h2),
          List.find?_cons_of_neg _ (by simpa using h2)]
        exact ih

theorem traceeFind_remove_ne (s : St) (q : Int) (p : Int) (hpq : p ≠ q) :
    traceeFind (s.remove q) p = traceeFind s p :=
  findPid_filter_ne s.tracees q p hpq

theorem traceeFind_remove_self (s : St) (q : Int) :
    traceeFind (s.remove q) q = none := by
  show (s.tracees.filter fun t => !(t.pid == q)).find? (fun t => t.pid == q)
    = none
  rw [List.find?_eq_none]
  intro t ht
  have := List.of_mem_filter ht
  simpa using this

theorem soaB_remove (s : St) (q : Int) (p : Int) (h : soaB s p = true) :
    soaB (s.remove q) p = true := by
  by_cases hpq : p = q
  · subst hpq; unfold soaB; rw [traceeFind_remove_self]
  · unfold soaB; rw [traceeFind_remove_ne s q p hpq]; exact h

theorem soaB_congr (s s' : St) (h : s'.tracees = s.tracees) (p : Int) :
    soaB s' p = soaB s p := by
  unfold soaB traceeFind
  rw [h]

theorem pos_of_map_pid (ts ts' : List Tracee)
    (h : ts'.map (·.pid) = ts.map (·.pid)) (hp : ∀ t ∈ ts, 0 < t.pid) :
    ∀ t ∈ ts', 0 < t.pid := by
  intro t ht
  have hm : t.pid ∈ ts'.map (·.pid) := List.mem_map_of_mem _ ht
  rw [h] at hm
  obtain ⟨u, hu, he⟩ := List.mem_map.mp hm
  exact he ▸ hp u hu

theorem WF_of_tracees_eq (s s' : St) (h : s'.tracees = s.tracees) :
    WF s → WF s' := by
  intro ⟨h1, h2⟩
  exact ⟨by rw [h]; exact h1, by rw [h]; exact h2⟩

theorem WF_setStop (s : St) (q : Int) (st : StopType) (h : WF s) :
    WF (s.setStop q st) := by
  obtain ⟨h1, h2⟩ := h
  have hmap := setStatusFirst_map_pid s.tracees q (.stopped st)
  exact ⟨by rw [show (s.setStop q st).tracees
      = setStatusFirst s.tracees q (.stopped st) from rfl, hmap]; exact h1,
    pos_of_map_pid s.tracees _ hmap h2⟩

theorem WF_add (s : St) (q : Int) (hq : 0 < q) (h : WF s) : WF (s.add q) := by
  obtain ⟨h1, h2⟩ := h
  unfold St.add
  cases hf : traceeFind s q with
  | some t => exact ⟨h1, h2⟩
  | none =>
    have habs := (traceeFind_eq_none_iff s q).mp hf
    constructor
    · show ((s.tracees ++ [(⟨q, .stopped .interrupt⟩ : Tracee)]).map
        (fun t => t.pid)).Nodup
      rw [List.map_append]
      rw [List.nodup_append]
      refine ⟨h1, List.nodup_singleton q, ?_⟩
      intro x hx hx2
      simp only [List.map_cons, List.map_nil, List.mem_singleton] at hx2
      obtain ⟨u, hu, he⟩ := List.mem_map.mp hx
      exact habs u hu (by rw [he, hx2])
    · intro t ht
      rcases List.mem_append.mp ht with h | h
      · exact h2 t h
      · simp only [List.mem_singleton] at h
        rw [h]
        exact hq

theorem WF_remove (s : St) (q : Int) (h : WF s) : WF (s.remove q) := by
  obtain ⟨h1, h2⟩ := h
  constructor
  · show ((s.tracees.filter fun t => !(t.pid == q)).map (·.pid)).Nodup
    exact ((List.filter_sublist s.tracees).map (·.pid)).nodup h1
  · intro t ht
    exact h2 t (List.mem_of_mem_filter ht)

theorem map_pid_of_pid_preserving (f : Tracee → Tracee)
    (hf : ∀ t, (f t).pid = t.pid) (ts : List Tracee) :
    (ts.map f).map (·.pid) = ts.map (·.pid) := by
  induction ts with
  | nil => rfl
  | cons t ts ih => simp [hf, ih]

theorem contStopped_map_pid (s : St) :
    (contStopped s).tracees.map (·.pid) = s.tracees.map (·.pid) := by
  apply map_pid_of_pid_preserving
  intro t
  cases t.status <;> rfl

theorem WF_contStopped (s : St) (h : WF s) : WF (contStopped s) := by
  obtain ⟨h1, h2⟩ := h
  have hmap := contStopped_map_pid s
  exact ⟨by rw [hmap]; exact h1, pos_of_map_pid s.tracees _ hmap h2⟩

theorem contStoppedEx_map_pid (s : St) (req : Int × Int) (ex : List Int) :
    (contStoppedEx s req ex).tracees.map (·.pid) = s.tracees.map (·.pid) := by
  apply map_pid_of_pid_preserving
  intro t
  cases t.status with
  | running => rfl
  | stopped st =>
    show (if t.pid == req.1 || !(ex.contains t.pid) then
      ({ t with status := .running } : Tracee) else t).pid = t.pid
    split <;> rfl

theorem WF_contStoppedEx (s : St) (req : Int × Int) (ex : List Int)
    (h : WF s) : WF (contStoppedEx s req ex) := by
  obtain ⟨h1, h2⟩ := h
  have hmap := contStoppedEx_map_pid s req ex
  exact ⟨by rw [hmap]; exact h1, pos_of_map_pid s.tracees _ hmap h2⟩

theorem find_mem_nodup (ts : List Tracee) (hnd : (ts.map (·.pid)).Nodup)
    (t : Tracee) (ht : t ∈ ts) :
    ts.find? (fun u => u.pid == t.pid) = some t := by
  induction ts with
  | nil => cases ht
  | cons a ts ih =>
    rcases List.mem_cons.mp ht with h | h
    · subst h
      rw [List.find?_cons_of_pos _ (by simp)]
    · have hnd' : (ts.map (·.pid)).Nodup := (List.nodup_cons.mp hnd).2
      have hne : ¬ (a.pid = t.pid) := by
        intro hc
        have hm : t.pid ∈ ts.map (·.pid) := List.mem_map_of_mem _ h
        rw [← hc] at hm
        exact (List.nodup_cons.mp hnd).1 hm
      rw [List.find?_cons_of_neg _ (by simpa using hne)]
      exact ih hnd' h

theorem allStopped_of_soa (s : St) (hWF : WF s)
    (hsoa : ∀ p, soaB s p = true) : allStoppedB s = true := by
  unfold allStoppedB
  rw [List.all_eq_true]
  intro t ht
  have h := hsoa t.pid
  unfold soaB at h
  unfold traceeFind at h
  rw [find_mem_nodup s.tracees hWF.1 t ht] at h
  exact h

theorem soa_of_allStopped (s : St) (h : allStoppedB s = true) :
    ∀ p, soaB s p = true := by
  intro p
  unfold soaB
  cases hf : traceeFind s p with
  | none => rfl
  | some t =>
    have hmem : t ∈ s.tracees := List.mem_of_find?_eq_some hf
    unfold allStoppedB at h
    rw [List.all_eq_true] at h
    exact h t hmem

theorem popEvent_ok {s : St} {e : Ev} {s' : St}
    (h : popEvent s = .ok (e, s')) :
    s.events = e :: s'.events ∧ s' = { s with events := s'.events } := by
  unfold popEvent at h
  cases hev : s.events with
  | nil => rw [hev] at h; cases h
  | cons a rest =>
    rw [hev] at h
    cases h
    exact ⟨rfl, rfl⟩

theorem ensureSetStop_ok {s : St} {q : Int} {st : StopType} {s' : St}
    (h : s.ensureSetStop q st = .ok s') :
    s' = s.setStop q st ∧ ∃ t, traceeFind s q = some t := by
  unfold St.ensureSetStop at h
  cases hf : traceeFind s q with
  | none => rw [hf] at h; cases h
  | some t =>
    rw [hf] at h
    cases h
    exact ⟨rfl, t, rfl⟩

theorem Pres_refl (s : St) : Pres s s :=
  ⟨fun _ h => h, rfl, rfl, rfl⟩

theorem Pres_trans {s1 s2 s3 : St} (h1 : Pres s1 s2) (h2 : Pres s2 s3) :
    Pres s1 s3 :=
  ⟨fun p hp => h2.1 p (h1.1 p hp), h2.2.1.trans h1.2.1,
   h2.2.2.1.trans h1.2.2.1, h2.2.2.2.trans h1.2.2.2⟩

theorem InvPres_refl (s : St) : InvPres s s := fun h => h

theorem InvPres_trans {s1 s2 s3 : St} (h1 : InvPres s1 s2)
    (h2 : InvPres s2 s3) : InvPres s1 s3 :=
  fun h => h2 (h1 h)

theorem EvWF_of_events_eq (s s' : St) (h : s'.events = s.events) :
    EvWF s → EvWF s' := by
  intro he e hm
  exact he e (h ▸ hm)

theorem Pres_setStop (s : St) (q : Int) (st : StopType) :
    Pres s (s.setStop q st) :=
  ⟨fun p hp => soaB_setStop s q st p hp, rfl, rfl, rfl⟩

theorem InvPres_setStop (s : St) (q : Int) (st : StopType) :
    InvPres s (s.setStop q st) :=
  fun ⟨h1, h2⟩ => ⟨WF_setStop s q st h1, EvWF_of_events_eq s _ rfl h2⟩

theorem Pres_remove (s : St) (q : Int) : Pres s (s.remove q) :=
  ⟨fun p hp => soaB_remove s q p hp, rfl, rfl, rfl⟩

theorem InvPres_remove (s : St) (q : Int) : InvPres s (s.remove q) :=
  fun ⟨h1, h2⟩ => ⟨WF_remove s q h1, EvWF_of_events_eq s _ rfl h2⟩

theorem Pres_add (s : St) (q : Int) : Pres s (s.add q) := by
  refine ⟨fun p hp => soaB_add s q p hp, ?_, ?_, ?_⟩ <;>
    (unfold St.add; cases hf : traceeFind s q <;> rfl)

theorem InvPres_add (s : St) (q : Int) (hq : 0 < q) : InvPres s (s.add q) := by
  intro ⟨h1, h2⟩
  refine ⟨WF_add s q hq h1, ?_⟩
  apply EvWF_of_events_eq s _ ?_ h2
  unfold St.add
  cases hf : traceeFind s q <;> rfl

theorem Pres_setFocus (s : St) (q : Int) : Pres s (s.setFocus q) :=
  ⟨fun p hp => by rwa [soaB_congr s (s.setFocus q) rfl p], rfl, rfl, rfl⟩

theorem InvPres_setFocus (s : St) (q : Int) : InvPres s (s.setFocus q) :=
  fun ⟨h1, h2⟩ =>
    ⟨WF_of_tracees_eq s _ rfl h1, EvWF_of_events_eq s _ rfl h2⟩

theorem Pres_pushSignal (s : St) (p : Int × Int) : Pres s (s.pushSignal p) :=
  ⟨fun q hq => by rwa [soaB_congr s (s.pushSignal p) rfl q], rfl, rfl, rfl⟩

theorem InvPres_pushSignal (s : St) (p : Int × Int) :
    InvPres s (s.pushSignal p) :=
  fun ⟨h1, h2⟩ =>
    ⟨WF_of_tracees_eq s _ rfl h1, EvWF_of_events_eq s _ rfl h2⟩

theorem Pres_logAct (s : St) (a : GhostAction) : Pres s (s.logAct a) :=
  ⟨fun q hq => by rwa [soaB_congr s (s.logAct a) rfl q], rfl, rfl, rfl⟩

theorem InvPres_logAct (s : St) (a : GhostAction) : InvPres s (s.logAct a) :=
  fun ⟨h1, h2⟩ =>
    ⟨WF_of_tracees_eq s _ rfl h1, EvWF_of_events_eq s _ rfl h2⟩

theorem Pres_popEvent {s : St} {e : Ev} {s' : St}
    (h : popEvent s = .ok (e, s')) : Pres s s' := by
  obtain ⟨hev, hs⟩ := popEvent_ok h
  rw [hs]
  exact ⟨fun q hq => by
    rwa [soaB_congr s { s with events := s'.events } rfl q], rfl, rfl, rfl⟩

theorem InvPres_popEvent {s : St} {e : Ev} {s' : St}
    (h : popEvent s = .ok (e, s')) : InvPres s s' := by
  obtain ⟨hev, hs⟩ := popEvent_ok h
  intro ⟨h1, h2⟩
  constructor
  · exact WF_of_tracees_eq s s' (by rw [hs]) h1
  · intro x hx
    exact h2 x (by rw [hev]; exact List.mem_cons_of_mem e hx)

theorem EvOK_popEvent {s : St} {e : Ev} {s' : St}
    (h : popEvent s = .ok (e, s')) (hwf : EvWF s) : EvOK e := by
  obtain ⟨hev, _⟩ := popEvent_ok h
  exact hwf e (by rw [hev]; exact List.mem_cons_self e _)

theorem bind_ok {α β : Type} {x : Except Err α} {f : α → Except Err β} {b : β}
    (h : (x >>= f) = .ok b) : ∃ a, x = .ok a ∧ f a = .ok b := by
  cases x with
  | error e =>
    exact absurd h (by simp [Bind.bind, Except.bind])
  | ok a => exact ⟨a, rfl, h⟩

theorem applyOK_zero : ApplyOK 0 := by
  intro ctx ev s r s' H
  simp [applyNewStatus] at H

theorem groupOK_zero : GroupOK 0 := by
  intro ctx init s s' H
  simp [groupStopInterrupt] at H

theorem roundOK_zero : RoundOK 0 := by
  intro ctx s pids s' H
  simp [gsRound] at H

theorem innerOK_zero : InnerOK 0 := by
  intro ctx tid w s s' H
  simp [gsInner] at H

theorem reloadOK_zero : ReloadOK 0 := by
  intro ctx tid s s' H
  simp [gsReload] at H

theorem stepOK_zero : StepOK 0 := by
  intro ctx pid s s' H
  simp [singleStep] at H

theorem stepLoopOK_zero : StepLoopOK 0 := by
  intro ctx pid s s' H
  simp [stepLoop] at H

theorem stepLoop_step (fuel : Nat) : StepLoopOK (fuel + 1) := by
  intro ctx pid s s' H
  simp only [stepLoop] at H
  cases hf : traceeFind s pid with
  | none => rw [hf] at H; cases H
  | some t =>
    rw [hf] at H
    obtain ⟨⟨w, s1⟩, hpop, H⟩ := bind_ok H
    obtain ⟨si, hsi, H⟩ := bind_ok H
    simp only [matchesStoppedBinding, matchesEventStopBinding, Bool.true_and,
      if_true] at H
    split at H <;>
      (cases H;
       exact ⟨Pres_popEvent hpop, InvPres_popEvent hpop⟩)

theorem step_step (fuel : Nat) (ihSL : StepLoopOK fuel) : StepOK (fuel + 1) := by
  intro ctx pid s s' H
  simp only [singleStep] at H
  have h := ihSL ctx pid _ s' H
  exact ⟨Pres_trans (Pres_logAct s _) h.1,
    InvPres_trans (InvPres_logAct s _) h.2⟩

theorem reload_step (fuel : Nat) (ihI : InnerOK fuel) : ReloadOK (fuel + 1) := by
  intro ctx tid s s' H
  simp only [gsReload] at H
  cases hf : traceeFind s tid with
  | none =>
    rw [hf] at H
    cases H
    exact ⟨Pres_refl s, InvPres_refl s⟩
  | some t =>
    rw [hf] at H
    dsimp only at H
    by_cases hst : (t.isStopped && (t.status == TraceeStatus.stopped .interrupt)) = true
    · rw [if_pos hst] at H
      cases H
      exact ⟨Pres_refl s, InvPres_refl s⟩
    · rw [if_neg hst] at H
      obtain ⟨⟨w, s1⟩, hpop, H⟩ := bind_ok H
      have hI := ihI ctx tid w s1 s' H
      refine ⟨Pres_trans (Pres_popEvent hpop) hI.1, ?_⟩
      intro hinv
      exact hI.2 (EvOK_popEvent hpop hinv.2) (InvPres_popEvent hpop hinv)

theorem inner_step (fuel : Nat) (ihA : ApplyOK fuel) (ihRe : ReloadOK fuel) :
    InnerOK (fuel + 1) := by
  intro ctx tid w s s' H
  simp only [gsInner] at H
  by_cases hes : isEventStop w = true
  · rw [if_pos hes] at H
    cases H
    exact ⟨Pres_refl s, fun _ => InvPres_refl s⟩
  · rw [if_neg hes] at H
    obtain ⟨⟨stop, s1⟩, happ, H⟩ := bind_ok H
    have hA := ihA ctx w s stop s1 happ
    cases stop with
    | none =>
      dsimp only at H
      have hRe := ihRe ctx tid s1 s' H
      exact ⟨Pres_trans hA.1 hRe.1,
        fun hok => InvPres_trans (hA.2.1 hok) hRe.2⟩
    | some r =>
      cases r with
      | debugeeExit code => exact absurd H (by simp)
      | debugeeStart => exact absurd H (by simp)
      | breakpoint pid a =>
        dsimp only at H
        by_cases hpt : (pid == tid) = true
        · rw [if_pos hpt] at H
          cases H
          exact ⟨hA.1, fun hok => hA.2.1 hok⟩
        · rw [if_neg hpt] at H
          have hRe := ihRe ctx tid s1 s' H
          exact ⟨Pres_trans hA.1 hRe.1,
            fun hok => InvPres_trans (hA.2.1 hok) hRe.2⟩
      | signalStop p g =>
        cases H
        exact ⟨hA.1, fun hok => hA.2.1 hok⟩
      | noSuchProcess p =>
        cases H
        exact ⟨hA.1, fun hok => hA.2.1 hok⟩

theorem allStoppedB_congr (s s' : St) (h : s'.tracees = s.tracees) :
    allStoppedB s' = allStoppedB s := by
  unfold allStoppedB
  rw [h]

theorem mem_pids_of_find (s : St) (p : Int)
    (h : ¬ p ∈ s.tracees.map (·.pid)) : traceeFind s p = none := by
  rw [traceeFind_eq_none_iff]
  intro t ht hc
  exact h (by rw [← hc]; exact List.mem_map_of_mem _ ht)

theorem round_step (fuel : Nat) (ihI : InnerOK fuel) (ihR : RoundOK fuel) :
    RoundOK (fuel + 1) := by
  intro ctx s pids s' H
  cases pids with
  | nil =>
    simp only [gsRound] at H
    cases H
    refine ⟨Pres_refl s, InvPres_refl s, ?_⟩
    intro p hp
    cases hp
  | cons tid rest =>
    simp only [gsRound] at H
    cases hf : traceeFind s tid with
    | none =>
      rw [hf] at H
      dsimp only at H
      have hR := ihR ctx s rest s' H
      refine ⟨hR.1, hR.2.1, ?_⟩
      intro p hp
      rcases List.mem_cons.mp hp with h | h
      · subst h
        apply hR.1.1 p
        unfold soaB
        rw [hf]
      · exact hR.2.2 p h
    | some t =>
      rw [hf] at H
      dsimp only at H
      by_cases hst : t.isStopped = true
      · rw [if_pos hst] at H
        have hR := ihR ctx s rest s' H
        refine ⟨hR.1, hR.2.1, ?_⟩
        intro p hp
        rcases List.mem_cons.mp hp with h | h
        · subst h
          apply hR.1.1 p
          unfold soaB
          rw [hf]
          exact hst
        · exact hR.2.2 p h
      · rw [if_neg hst] at H
        by_cases hdead : (s.dead.contains tid) = true
        · rw [if_pos hdead] at H
          have hR := ihR ctx (s.setStop tid .interrupt) rest s' H
          refine ⟨Pres_trans (Pres_setStop s tid .interrupt) hR.1,
            InvPres_trans (InvPres_setStop s tid .interrupt) hR.2.1, ?_⟩
          intro p hp
          rcases List.mem_cons.mp hp with h | h
          · subst h
            exact hR.1.1 p (soaB_setStop_self s p .interrupt)
          · exact hR.2.2 p h
        · rw [if_neg hdead] at H
          obtain ⟨⟨w, s1⟩, hpop, H⟩ := bind_ok H
          obtain ⟨s2, hinner, H⟩ := bind_ok H
          have hI := ihI ctx tid w s1 s2 hinner
          have hPres01 : Pres s s1 := Pres_popEvent hpop
          have hPres12 : Pres s1 s2 := hI.1
          have hstep : Pres s2 (match traceeFind s2 tid with
                | some u => if !u.isStopped then s2.setStop tid .interrupt
                            else s2
                | none => s2) ∧
              InvPres s2 (match traceeFind s2 tid with
                | some u => if !u.isStopped then s2.setStop tid .interrupt
                            else s2
                | none => s2) ∧
              soaB (match traceeFind s2 tid with
                | some u => if !u.isStopped then s2.setStop tid .interrupt
                            else s2
                | none => s2) tid = true := by
            cases hf2 : traceeFind s2 tid with
            | none =>
              refine ⟨Pres_refl s2, InvPres_refl s2, ?_⟩
              unfold soaB
              rw [hf2]
            | some u =>
              show Pres s2 (if !u.isStopped then s2.setStop tid .interrupt
                    else s2) ∧
                InvPres s2 (if !u.isStopped then s2.setStop tid .interrupt
                    else s2) ∧
                soaB (if !u.isStopped then s2.setStop tid .interrupt
                    else s2) tid = true
              by_cases hu : (!u.isStopped) = true
              · rw [if_pos hu]
                exact ⟨Pres_setStop s2 tid .interrupt,
                  InvPres_setStop s2 tid .interrupt,
                  soaB_setStop_self s2 tid .interrupt⟩
              · rw [if_neg hu]
                refine ⟨Pres_refl s2, InvPres_refl s2, ?_⟩
                unfold soaB
                rw [hf2]
                simpa using hu
          have hR := ihR ctx _ rest s' H
          refine ⟨Pres_trans hPres01 (Pres_trans hPres12
              (Pres_trans hstep.1 hR.1)), ?_, ?_⟩
          · intro hinv
            have hok := EvOK_popEvent hpop hinv.2
            exact hR.2.1 (hstep.2.1 (hI.2 hok (InvPres_popEvent hpop hinv)))
          · intro p hp
            rcases List.mem_cons.mp hp with h | h
            · subst h
              exact hR.1.1 p hstep.2.2
            · exact hR.2.2 p h

theorem eq_of_mem_pid_nodup (ts : List Tracee)
    (hnd : (ts.map (·.pid)).Nodup) (t u : Tracee) (ht : t ∈ ts)
    (hu : u ∈ ts) (hp : t.pid = u.pid) : t = u := by
  have h1 := find_mem_nodup ts hnd t ht
  have h2 := find_mem_nodup ts hnd u hu
  rw [hp] at h1
  rw [h1] at h2
  exact Option.some.inj h2

theorem group_step (fuel : Nat) (ihR : RoundOK fuel) : GroupOK (fuel + 1) := by
  intro ctx init s s' H
  simp only [groupStopInterrupt] at H
  by_cases hg : s.guard = true
  · rw [if_pos hg] at H
    cases H
    refine ⟨Pres_refl s, InvPres_refl s, ?_⟩
    intro hg0
    rw [hg0] at hg
    cases hg
  · rw [if_neg hg] at H
    have hgf : s.guard = false := by
      cases hb : s.guard
      · rfl
      · exact absurd hb hg
    by_cases hany :
        (({ s with guard := true } : St).tracees.any
          fun t => !(t.pid == init)) = true
    · rw [if_neg (by simp [hany])] at H
      obtain ⟨s2, hr1, H⟩ := bind_ok H
      obtain ⟨s3, hr2, H⟩ := bind_ok H
      cases H
      have h1 := ihR ctx { s with guard := true } _ s2 hr1
      have h2 := ihR ctx s2 _ s3 hr2
      have hMono1 : ∀ p, soaB s p = true → soaB s2 p = true := by
        intro p hp
        exact h1.1.1 p (by rwa [soaB_congr s { s with guard := true } rfl p])
      refine ⟨⟨?_, ?_, ?_, ?_⟩, ?_, ?_⟩
      · intro p hp
        rw [soaB_congr s3 { s3 with guard := false } rfl p]
        exact h2.1.1 p (hMono1 p hp)
      · show false = s.guard
        exact hgf.symm
      · show s3.procPid = s.procPid
        rw [h2.1.2.2.1, h1.1.2.2.1]
      · show s3.dead = s.dead
        rw [h2.1.2.2.2, h1.1.2.2.2]
      · intro hinv
        have hinv1 : WF { s with guard := true } ∧
            EvWF { s with guard := true } :=
          ⟨WF_of_tracees_eq s _ rfl hinv.1, EvWF_of_events_eq s _ rfl hinv.2⟩
        have hinv3 := h2.2.1 (h1.2.1 hinv1)
        exact ⟨WF_of_tracees_eq s3 _ rfl hinv3.1,
          EvWF_of_events_eq s3 _ rfl hinv3.2⟩
      · intro hg0 hWF hEvWF hinit
        have hinv1 : WF { s with guard := true } ∧
            EvWF { s with guard := true } :=
          ⟨WF_of_tracees_eq s _ rfl hWF, EvWF_of_events_eq s _ rfl hEvWF⟩
        have hinv2 := h1.2.1 hinv1
        have hcov : ∀ p, soaB s2 p = true := by
          intro p
          by_cases hp : p ∈ ({ s with guard := true } : St).tracees.map (·.pid)
          · exact h1.2.2 p hp
          · apply h1.1.1 p
            unfold soaB
            rw [mem_pids_of_find _ p hp]
        have hall3 : ∀ p, soaB s3 p = true := fun p => h2.1.1 p (hcov p)
        have hinv3 := h2.2.1 hinv2
        have h3 : allStoppedB s3 = true :=
          allStopped_of_soa s3 hinv3.1 hall3
        rwa [allStoppedB_congr s3 { s3 with guard := false } rfl]
    · have hanyf : (({ s with guard := true } : St).tracees.any
          fun t => !(t.pid == init)) = false := by
        cases hb : (({ s with guard := true } : St).tracees.any
          fun t => !(t.pid == init))
        · rfl
        · exact absurd hb hany
      rw [if_pos (by simp [hanyf])] at H
      cases H
      have hall : ∀ t ∈ s.tracees, t.pid = init := by
        intro t ht
        have := List.any_eq_false.mp hanyf t ht
        simpa using this
      refine ⟨⟨?_, ?_, rfl, rfl⟩, ?_, ?_⟩
      · intro p hp
        rwa [soaB_congr s { s with guard := false } rfl p]
      · show false = s.guard
        exact hgf.symm
      · intro hinv
        exact ⟨WF_of_tracees_eq s _ rfl hinv.1,
          EvWF_of_events_eq s _ rfl hinv.2⟩
      · intro hg0 hWF hEvWF hinit
        unfold allStoppedB
        rw [List.all_eq_true]
        intro t ht
        have hpid := hall t ht
        rcases hinit with hinit | hinit
        · exfalso
          have := hWF.2 t ht
          rw [hpid, hinit] at this
          omega
        · unfold soaB at hinit
          cases hfind : traceeFind s init with
          | none =>
            exact absurd hpid ((traceeFind_eq_none_iff s init).mp hfind t ht)
          | some u =>
            rw [hfind] at hinit
            have humem : u ∈ s.tracees := List.mem_of_find?_eq_some hfind
            have hupid : u.pid = init := by
              have := List.find?_some hfind
              simpa using this
            have : t = u := eq_of_mem_pid_nodup s.tracees hWF.1 t u ht humem
              (by rw [hpid, hupid])
            rw [this]
            exact hinit

theorem stopPost_none (s' : St) : StopPost none s' :=
  ⟨(fun _ _ h => nomatch h), (fun _ _ h => nomatch h)⟩

theorem stopPost_exit (code : Int) (s' : St) :
    StopPost (some (.debugeeExit code)) s' :=
  ⟨(fun _ _ h => nomatch h), (fun _ _ h => nomatch h)⟩

theorem stopPost_start (s' : St) : StopPost (some .debugeeStart) s' :=
  ⟨(fun _ _ h => nomatch h), (fun _ _ h => nomatch h)⟩

theorem stopPost_nosuch (pid : Int) (s' : St) :
    StopPost (some (.noSuchProcess pid)) s' :=
  ⟨(fun _ _ h => nomatch h), (fun _ _ h => nomatch h)⟩

theorem stopPost_breakpoint (pid : Int) (a : Nat) (s' : St)
    (h : allStoppedB s' = true) : StopPost (some (.breakpoint pid a)) s' :=
  ⟨(fun _ _ _ => h), (fun _ _ h2 => nomatch h2)⟩

theorem stopPost_signalStop (pid g : Int) (s' : St)
    (h : allStoppedB s' = true) : StopPost (some (.signalStop pid g)) s' :=
  ⟨(fun _ _ h2 => nomatch h2), (fun _ _ _ => h)⟩

theorem apply_step (fuel : Nat) (ihG : GroupOK fuel) (ihS : StepOK fuel) :
    ApplyOK (fuel + 1) := by
  intro ctx ev s r s' H
  cases ev with
  | exited pid code =>
    simp only [applyNewStatus] at H
    by_cases hpp : pid = (s.remove pid).procPid
    · rw [if_pos hpp] at H
      cases H
      exact ⟨Pres_remove s pid, fun _ => InvPres_remove s pid,
        fun _ _ _ => stopPost_exit code _⟩
    · rw [if_neg hpp] at H
      cases H
      exact ⟨Pres_remove s pid, fun _ => InvPres_remove s pid,
        fun _ _ _ => stopPost_none _⟩
  | ptraceEvent pid code msg =>
    simp only [applyNewStatus] at H
    by_cases h1 : code = PTRACE_EVENT_EXEC
    · rw [if_pos h1] at H
      cases H
      exact ⟨Pres_add s pid, fun hok => InvPres_add s pid hok.1,
        fun _ _ _ => stopPost_start _⟩
    · rw [if_neg h1] at H
      by_cases h2 : code = PTRACE_EVENT_CLONE
      · rw [if_pos h2] at H
        obtain ⟨s1, hens, H⟩ := bind_ok H
        obtain ⟨hs1, _⟩ := ensureSetStop_ok hens
        subst hs1
        cases hfind2 : traceeFind (s.setStop pid .interrupt) msg with
        | none =>
          rw [hfind2] at H
          dsimp only at H
          obtain ⟨⟨w2, s2⟩, hpop, H⟩ := bind_ok H
          cases H
          refine ⟨?_, ?_, fun _ _ _ => stopPost_none _⟩
          · exact Pres_trans (Pres_setStop s pid .interrupt)
              (Pres_trans (Pres_add _ msg) (Pres_popEvent hpop))
          · intro hok
            exact InvPres_trans (InvPres_setStop s pid .interrupt)
              (InvPres_trans (InvPres_add _ msg hok.2) (InvPres_popEvent hpop))
        | some t1 =>
          rw [hfind2] at H
          dsimp only at H
          cases H
          exact ⟨Pres_setStop s pid .interrupt,
            fun _ => InvPres_setStop s pid .interrupt,
            fun _ _ _ => stopPost_none _⟩
      · rw [if_neg h2] at H
        by_cases h3 : code = PTRACE_EVENT_STOP
        · rw [if_pos h3] at H
          cases hfind : traceeFind s pid with
          | some t =>
            rw [hfind] at H
            dsimp only at H
            cases H
            exact ⟨Pres_setStop s pid .interrupt,
              fun _ => InvPres_setStop s pid .interrupt,
              fun _ _ _ => stopPost_none _⟩
          | none =>
            rw [hfind] at H
            dsimp only at H
            cases H
            exact ⟨Pres_add s pid, fun hok => InvPres_add s pid hok.1,
              fun _ _ _ => stopPost_none _⟩
        · rw [if_neg h3] at H
          by_cases h4 : code = PTRACE_EVENT_EXIT
          · rw [if_pos h4] at H
            cases H
            exact ⟨Pres_remove s pid, fun _ => InvPres_remove s pid,
              fun _ _ _ => stopPost_none _⟩
          · rw [if_neg h4] at H
            cases H
            exact ⟨Pres_refl s, fun _ => InvPres_refl s,
              fun _ _ _ => stopPost_none _⟩
  | stopped pid sig info pcReg =>
    simp only [applyNewStatus] at H
    cases info with
    | none =>
      dsimp only at H
      cases H
      exact ⟨Pres_refl s, fun _ => InvPres_refl s,
        fun _ _ _ => stopPost_nosuch pid s⟩
    | some si =>
      dsimp only at H
      by_cases hsig : sig = SIGTRAP
      · rw [if_pos hsig] at H
        by_cases htt : si = TRAP_TRACE
        · rw [if_pos htt] at H
          exact absurd H (by simp)
        · rw [if_neg htt] at H
          by_cases hbk : si = TRAP_BRKPT ∨ si = SI_KERNEL
          · rw [if_pos hbk] at H
            cases hfind : traceeFind s pid with
            | none =>
              rw [hfind] at H
              exact absurd H (by simp)
            | some t =>
              rw [hfind] at H
              dsimp only at H
              by_cases htmp : (ctx.breakpoints.any fun b => b.temporary) = true
              · rw [if_pos htmp] at H
                cases hbp : ctx.breakpoints.find?
                    (fun b => b.addr == pcReg - 1) with
                | none =>
                  rw [hbp] at H
                  exact absurd H (by simp)
                | some brkpt =>
                  rw [hbp] at H
                  dsimp only at H
                  by_cases hown : (brkpt.temporary && pid == brkpt.pid) = true
                  · rw [if_pos hown] at H
                    obtain ⟨s2, hens, H⟩ := bind_ok H
                    obtain ⟨hs2, _⟩ := ensureSetStop_ok hens
                    subst hs2
                    obtain ⟨s3, hgs, H⟩ := bind_ok H
                    cases H
                    have hG := ihG ctx pid _ _ hgs
                    refine ⟨?_, ?_, ?_⟩
                    · exact Pres_trans (Pres_setFocus s pid)
                        (Pres_trans (Pres_setStop _ pid .interrupt) hG.1)
                    · intro _
                      exact InvPres_trans (InvPres_setFocus s pid)
                        (InvPres_trans (InvPres_setStop _ pid .interrupt)
                          hG.2.1)
                    · intro hg hWF hEvWF
                      apply stopPost_breakpoint
                      apply hG.2.2
                      · exact hg
                      · exact WF_setStop _ pid .interrupt
                          (WF_of_tracees_eq s _ rfl hWF)
                      · exact EvWF_of_events_eq s _ rfl hEvWF
                      · exact Or.inr (soaB_setStop_self _ pid .interrupt)
                  · rw [if_neg hown] at H
                    by_cases hen : brkpt.enabled = true
                    · rw [if_pos hen] at H
                      obtain ⟨sB, hss, H⟩ := bind_ok H
                      obtain ⟨sy, hpure, H⟩ := bind_ok H
                      cases hpure
                      obtain ⟨s3, hens, H⟩ := bind_ok H
                      obtain ⟨hs3, _⟩ := ensureSetStop_ok hens
                      subst hs3
                      cases H
                      have hS := ihS ctx t.pid _ _ hss
                      exact ⟨Pres_trans (Pres_logAct s _)
                          (Pres_trans hS.1 (Pres_trans (Pres_logAct sB _)
                            (Pres_setStop _ pid .interrupt))),
                        fun _ => InvPres_trans (InvPres_logAct s _)
                          (InvPres_trans hS.2 (InvPres_trans
                            (InvPres_logAct sB _)
                            (InvPres_setStop _ pid .interrupt))),
                        fun _ _ _ => stopPost_none _⟩
                    · rw [if_neg hen] at H
                      obtain ⟨sy, hpure, H⟩ := bind_ok H
                      cases hpure
                      obtain ⟨s3, hens, H⟩ := bind_ok H
                      obtain ⟨hs3, _⟩ := ensureSetStop_ok hens
                      subst hs3
                      cases H
                      exact ⟨Pres_setStop s pid .interrupt,
                        fun _ => InvPres_setStop s pid .interrupt,
                        fun _ _ _ => stopPost_none _⟩
              · rw [if_neg htmp] at H
                obtain ⟨s2, hens, H⟩ := bind_ok H
                obtain ⟨hs2, _⟩ := ensureSetStop_ok hens
                subst hs2
                obtain ⟨s3, hgs, H⟩ := bind_ok H
                cases H
                have hG := ihG ctx pid _ _ hgs
                refine ⟨?_, ?_, ?_⟩
                · exact Pres_trans (Pres_setFocus s pid)
                    (Pres_trans (Pres_setStop _ pid .interrupt) hG.1)
                · intro _
                  exact InvPres_trans (InvPres_setFocus s pid)
                    (InvPres_trans (InvPres_setStop _ pid .interrupt) hG.2.1)
                · intro hg hWF hEvWF
                  apply stopPost_breakpoint
                  apply hG.2.2
                  · exact hg
                  · exact WF_setStop _ pid .interrupt
                      (WF_of_tracees_eq s _ rfl hWF)
                  · exact EvWF_of_events_eq s _ rfl hEvWF
                  · exact Or.inr (soaB_setStop_self _ pid .interrupt)
          · rw [if_neg hbk] at H
            exact absurd H (by simp)
      · rw [if_neg hsig] at H
        obtain ⟨s2, hens, H⟩ := bind_ok H
        obtain ⟨hs2, _⟩ := ensureSetStop_ok hens
        subst hs2
        obtain ⟨s3, hgs, H⟩ := bind_ok H
        cases H
        have hG := ihG ctx pid _ _ hgs
        refine ⟨?_, ?_, ?_⟩
        · exact Pres_trans (Pres_pushSignal s _)
            (Pres_trans (Pres_setStop _ pid _) hG.1)
        · intro _
          exact InvPres_trans (InvPres_pushSignal s _)
            (InvPres_trans (InvPres_setStop _ pid _) hG.2.1)
        · intro hg hWF hEvWF
          apply stopPost_signalStop
          apply hG.2.2
          · exact hg
          · exact WF_setStop _ pid _ (WF_of_tracees_eq s _ rfl hWF)
          · exact EvWF_of_events_eq s _ rfl hEvWF
          · exact Or.inr (soaB_setStop_self _ pid _)
  | signaled pid =>
    simp only [applyNewStatus] at H
    cases H
    exact ⟨Pres_refl s, fun _ => InvPres_refl s,
      fun _ _ _ => stopPost_none _⟩
  | other =>
    simp only [applyNewStatus] at H
    cases H
    exact ⟨Pres_refl s, fun _ => InvPres_refl s,
      fun _ _ _ => stopPost_none _⟩

theorem master : ∀ fuel, ApplyOK fuel ∧ GroupOK fuel ∧ RoundOK fuel ∧
    InnerOK fuel ∧ ReloadOK fuel ∧ StepOK fuel ∧ StepLoopOK fuel := by
  intro fuel
  induction fuel with
  | zero =>
    exact ⟨applyOK_zero, groupOK_zero, roundOK_zero, innerOK_zero,
      reloadOK_zero, stepOK_zero, stepLoopOK_zero⟩
  | succ f ih =>
    obtain ⟨ihA, ihG, ihR, ihI, ihRe, ihS, ihSL⟩ := ih
    exact ⟨apply_step f ihG ihS, group_step f ihR, round_step f ihI ihR,
      inner_step f ihA ihRe, reload_step f ihI, step_step f ihSL,
      stepLoop_step f⟩

theorem resume_stop_post : ∀ fuel ctx s r s',
    resume fuel ctx s = .ok (r, s') → s.guard = false → WF s → EvWF s →
    (∀ p a, r = .breakpoint p a → allStoppedB s' = true) ∧
    (∀ p g, r = .signalStop p g → allStoppedB s' = true) := by
  intro fuel
  induction fuel with
  | zero =>
    intro ctx s r s' H
    simp [resume] at H
  | succ f ih =>
    intro ctx s r s' H hg hWF hEvWF
    obtain ⟨ihA, ihG, _⟩ := master f
    simp only [resume] at H
    cases hq : s.signalQueue with
    | cons req restQ =>
      rw [hq] at H
      cases restQ with
      | cons hd tl =>
        obtain ⟨pidq, signq⟩ := hd
        dsimp only at H
        obtain ⟨s2, hgs, H⟩ := bind_ok H
        cases H
        have hG := ihG ctx (-1) _ _ hgs
        refine ⟨(fun p a h => nomatch h), fun p g h => ?_⟩
        apply hG.2.2
        · exact hg
        · exact WF_contStoppedEx _ _ _ (WF_of_tracees_eq s _ rfl hWF)
        · exact EvWF_of_events_eq s _ rfl hEvWF
        · exact Or.inl rfl
      | nil =>
        dsimp only at H
        obtain ⟨⟨ev, s2⟩, hpop, H⟩ := bind_ok H
        obtain ⟨⟨stop, s3⟩, happ, H⟩ := bind_ok H
        have hA := ihA ctx ev s2 stop s3 happ
        have hWF1 : WF (contStoppedEx { s with signalQueue := [] } req
            (List.map (fun x : Int × Int => x.1) [])) :=
          WF_contStoppedEx _ _ _ (WF_of_tracees_eq s _ rfl hWF)
        have hEvWF1 : EvWF (contStoppedEx { s with signalQueue := [] } req
            (List.map (fun x : Int × Int => x.1) [])) :=
          EvWF_of_events_eq s _ rfl hEvWF
        have hok := EvOK_popEvent hpop hEvWF1
        obtain ⟨hWF2, hEvWF2⟩ := InvPres_popEvent hpop ⟨hWF1, hEvWF1⟩
        have hg2 : s2.guard = false := by
          rw [(Pres_popEvent hpop).2.1]
          exact hg
        cases stop with
        | some rr =>
          dsimp only at H
          cases H
          have hSP := hA.2.2 hg2 hWF2 hEvWF2
          exact ⟨fun p a h => hSP.1 p a (by rw [h]),
            fun p g h => hSP.2 p g (by rw [h])⟩
        | none =>
          dsimp only at H
          have hg3 : s3.guard = false := by
            rw [hA.1.2.1]
            exact hg2
          obtain ⟨hWF3, hEvWF3⟩ := hA.2.1 hok ⟨hWF2, hEvWF2⟩
          exact ih ctx s3 r s' H hg3 hWF3 hEvWF3
    | nil =>
      rw [hq] at H
      dsimp only at H
      obtain ⟨⟨ev, s2⟩, hpop, H⟩ := bind_ok H
      obtain ⟨⟨stop, s3⟩, happ, H⟩ := bind_ok H
      have hA := ihA ctx ev s2 stop s3 happ
      have hWF1 : WF (contStopped s) :=
        WF_contStopped s hWF
      have hEvWF1 : EvWF (contStopped s) :=
        EvWF_of_events_eq s _ rfl hEvWF
      have hok := EvOK_popEvent hpop hEvWF1
      obtain ⟨hWF2, hEvWF2⟩ := InvPres_popEvent hpop ⟨hWF1, hEvWF1⟩
      have hg2 : s2.guard = false := by
        rw [(Pres_popEvent hpop).2.1]
        exact hg
      cases stop with
      | some rr =>
        dsimp only at H
        cases H
        have hSP := hA.2.2 hg2 hWF2 hEvWF2
        exact ⟨fun p a h => hSP.1 p a (by rw [h]),
          fun p g h => hSP.2 p g (by rw [h])⟩
      | none =>
        dsimp only at H
        have hg3 : s3.guard = false := by
          rw [hA.1.2.1]
          exact hg2
        obtain ⟨hWF3, hEvWF3⟩ := hA.2.1 hok ⟨hWF2, hEvWF2⟩
        exact ih ctx s3 r s' H hg3 hWF3 hEvWF3

/-- **C1, counterexample.**  The claim as stated is false on the code at
explicit inputs.  First run: from two stopped tracees, the next wait status
is a SIGTRAP stop whose `getsiginfo` fails with `ESRCH`, so `resume`
returns `NoSuchProcess(1)` — a stop reason other than `DebugeeExit` — while
both tracee records are still `Running` (`allStoppedB` is `false`).
Second run: thread 1 hits a breakpoint and, during the group stop, thread 2
reports its own breakpoint hit, which `apply_new_status` processes
recursively and which overwrites the focus; `resume` returns
`Breakpoint(1, 100)` but the focus tracee is 2, not the returned pid 1. -/
theorem c1_counterexample :
    stopAndAll (resume 6 ctx0 stCexA) = some (.noSuchProcess 1, false) ∧
    stopAndFocus (resume 8 ctx0 stCexB) = some (.breakpoint 1 100, some 2) ∧
    ((2 : Int) = 1 → False) := by
  refine ⟨by decide, by decide, by decide⟩

/-- **C1 (amended).**  When `resume` returns `Breakpoint(pid, _)` or
`SignalStop(pid, _)`, every tracee record held by the tracer is in some
`Stopped(_)` state.  (The original claim fails for the other non-exit stop
reasons — `NoSuchProcess` returns with tracees still running — and the
focus tracee can differ from the returned pid when another breakpoint is
consumed during the group stop, so the focus clause is dropped.)
Hypotheses: the group-stop guard starts released, the tracee table has one
record per positive thread id, and the pending wait statuses carry positive
thread ids. -/
theorem c1_stop_implies_all_stopped (fuel : Nat) (ctx : TraceContext)
    (s : St) (r : StopReason) (s' : St)
    (H : resume fuel ctx s = .ok (r, s')) (hguard : s.guard = false)
    (hWF : WF s) (hEvWF : EvWF s) :
    (∀ p a, r = .breakpoint p a → allStoppedB s' = true) ∧
    (∀ p g, r = .signalStop p g → allStoppedB s' = true) :=
  resume_stop_post fuel ctx s r s' H hguard hWF hEvWF

/-- **C1, witness.**  A concrete `resume` run that reports
`Breakpoint(1, 100)`; the theorem's hypotheses hold by computation and its
conclusion yields that every tracee record ended stopped. -/
theorem c1_stop_implies_all_stopped_witness :
    resume 5 ctx0 stW = .ok (.breakpoint 1 100, stWend) ∧
    allStoppedB stWend = true :=
  ⟨by decide,
   (c1_stop_implies_all_stopped 5 ctx0 stW (.breakpoint 1 100) stWend
     (by decide) (by decide) (by decide) (by decide)).1 1 100 rfl⟩

/-- **C3.**  The wait loop of `single_step` exits on its first wait status
no matter what the status is, because both `matches!` checks use the
binding pattern `_status`: here the status is a `SIGUSR1` stop with
`si_code = 0` — not a `TRAP_TRACE` stop, not a `PTRACE_EVENT_STOP`, and no
breakpoint exists — yet the loop returns with the signal queue untouched,
whereas routing the status through `apply_new_status`, as the claim
requires, would have enqueued the signal and reported `SignalStop(7, 10)`
(last conjunct). -/
theorem c3_single_step_loop_always_breaks :
    stepLoop 3 ctx0 7 stC3 = .ok { stC3 with events := [] } ∧
    ((0 : Int) = TRAP_TRACE → False) ∧
    isEventStop (.stopped 7 10 (some 0) 0) = false ∧
    ctx0.breakpoints = [] ∧
    { stC3 with events := ([] : List Ev) }.signalQueue = [] ∧
    stopOnly (applyNewStatus 3 ctx0 (.stopped 7 10 (some 0) 0)
        { stC3 with events := [] })
      = some (some (.signalStop 7 10)) := by
  refine ⟨by decide, by decide, by decide, by decide, by decide, by decide⟩

/-- **C9.**  In the `TRAP_BRKPT`/`SI_KERNEL` branch of `apply_new_status`,
while some breakpoint in the trace context is temporary, the `unwrap` on
the breakpoint lookup panics precisely when no breakpoint in the context
has an address equal to the decremented PC: if none matches, the function
reaches the panic (modelled `Err.panicNone`); if some breakpoint matches,
the lookup returns one whose address is the decremented PC, so the failure
branch is unreachable. -/
theorem c9_breakpoint_lookup_precondition (fuel : Nat) (ctx : TraceContext)
    (s : St) (pid si : Int) (pcv : Nat) (t : Tracee)
    (htmp : (ctx.breakpoints.any fun b => b.temporary) = true)
    (hsi : si = TRAP_BRKPT ∨ si = SI_KERNEL)
    (htr : traceeFind s pid = some t) :
    ((∀ b ∈ ctx.breakpoints, ¬ b.addr = pcv - 1) →
      applyNewStatus (fuel + 1) ctx (.stopped pid 5 (some si) pcv) s
        = .error .panicNone) ∧
    ((∃ b ∈ ctx.breakpoints, b.addr = pcv - 1) →
      ∃ b, ctx.breakpoints.find? (fun bb => bb.addr == pcv - 1) = some b ∧
        b.addr = pcv - 1) := by
  have htt : ¬ si = TRAP_TRACE := by
    rcases hsi with h | h <;> (subst h; decide)
  constructor
  · intro hnone
    have hfind : ctx.breakpoints.find? (fun bb => bb.addr == pcv - 1)
        = none := by
      rw [List.find?_eq_none]
      intro b hb
      simpa using hnone b hb
    simp only [applyNewStatus]
    rw [if_pos (show (5 : Int) = SIGTRAP by decide)]
    rw [if_neg htt]
    rw [if_pos hsi]
    rw [htr]
    dsimp only
    rw [if_pos htmp, hfind]
  · intro ⟨b, hb, haddr⟩
    have hsome : (ctx.breakpoints.find? (fun bb => bb.addr == pcv - 1)).isSome := by
      rw [List.find?_isSome]
      exact ⟨b, hb, by simpa using haddr⟩
    obtain ⟨b2, hb2⟩ := Option.isSome_iff_exists.mp hsome
    exact ⟨b2, hb2, by simpa using List.find?_some hb2⟩

/-- **C9, witness.**  With a temporary breakpoint present but no breakpoint
at the decremented PC `8`, `apply_new_status` reaches the panic; with the
PC matching breakpoint address 100, the lookup succeeds. -/
theorem c9_breakpoint_lookup_precondition_witness :
    applyNewStatus 1 ctxC2W (.stopped 2 5 (some 1) 9) stC2
      = .error .panicNone ∧
    (∃ b, ctxC2W.breakpoints.find? (fun bb => bb.addr == 101 - 1) = some b ∧
      b.addr = 101 - 1) :=
  ⟨(c9_breakpoint_lookup_precondition 0 ctxC2W stC2 2 1 9
      ⟨2, .stopped .interrupt⟩ (by decide) (Or.inl rfl) (by decide)).1
    (by decide),
   (c9_breakpoint_lookup_precondition 0 ctxC2W stC2 2 1 101
      ⟨2, .stopped .interrupt⟩ (by decide) (Or.inl rfl) (by decide)).2
    ⟨⟨100, 1, true, false⟩, by decide, by decide⟩⟩

theorem ok_bind {α β : Type} (a : α) (f : α → Except Err β) :
    ((.ok a : Except Err α) >>= f) = f a := rfl

theorem pure_bind_err {α β : Type} (a : α) (f : α → Except Err β) :
    ((pure a : Except Err α) >>= f) = f a := rfl

theorem popEvent_of_events {s : St} {e : Ev} {rest : List Ev}
    (h : s.events = e :: rest) :
    popEvent s = .ok (e, { s with events := rest }) := by
  unfold popEvent
  rw [h]

theorem singleStep_first_status (fuel : Nat) (ctx : TraceContext) (p : Int)
    (s : St) (u : Tracee) (e : Ev) (rest : List Ev) (v : Int)
    (htr : traceeFind s p = some u) (hev : s.events = e :: rest)
    (hgs : getsiginfoAfterWait e = .ok v) :
    singleStep (fuel + 2) ctx p s
      = .ok { s.logAct (.step p) with events := rest } := by
  simp only [singleStep, stepLoop]
  have htr2 : traceeFind (s.logAct (.step p)) p = some u := htr
  rw [htr2]
  dsimp only
  have hpop : popEvent (s.logAct (.step p))
      = .ok (e, { s.logAct (.step p) with events := rest }) :=
    popEvent_of_events hev
  rw [hpop, ok_bind]
  rw [hgs, ok_bind]
  simp only [matchesStoppedBinding, matchesEventStopBinding, Bool.true_and]
  by_cases hv : (v == TRAP_TRACE) = true
  · rw [if_pos hv]
  · rw [if_neg hv]
    exact if_pos trivial

/-- **C2, counterexample.**  A single enabled, non-temporary breakpoint at
address 100 owned by thread 1 is hit by thread 2 (SIGTRAP with
`TRAP_BRKPT`, PC 101 decremented to 100).  The claim requires the
disable/single-step/re-enable treatment and a `None` return, but because no
breakpoint in the context is temporary, `apply_new_status` takes the
normal-hit path and returns `Breakpoint(2, 100)`. -/
theorem c2_counterexample :
    (ctxC2.breakpoints.getD 0 default).enabled = true ∧
    (ctxC2.breakpoints.getD 0 default).temporary = false ∧
    (ctxC2.breakpoints.getD 0 default).pid = 1 ∧
    (ctxC2.breakpoints.getD 0 default).addr = 101 - 1 ∧
    stopOnly (applyNewStatus 5 ctxC2 (.stopped 2 5 (some 1) 101) stC2)
      = some (some (.breakpoint 2 100)) := by
  refine ⟨by decide, by decide, by decide, by decide, by decide⟩

/-- **C2 (amended).**  Whenever `apply_new_status` dispatches a SIGTRAP
stop with siginfo code `TRAP_BRKPT` or `SI_KERNEL` **and at least one
breakpoint in the trace context is temporary**, and the breakpoint found
at the decremented PC is enabled and owned by a thread other than the
hitting one, the tracer disables that breakpoint, single-steps the thread,
re-enables the breakpoint (the ghost log records exactly these actions),
marks the thread stopped, and returns `None`, so `resume` does not report
a `Breakpoint` stop for that thread. -/
theorem c2_unexpected_thread_step_over (fuel : Nat) (ctx : TraceContext)
    (s : St) (pid si : Int) (pcv : Nat) (b : Breakpoint) (t : Tracee)
    (e : Ev) (rest : List Ev) (v : Int)
    (htmp : (ctx.breakpoints.any fun bb => bb.temporary) = true)
    (hfindb : ctx.breakpoints.find? (fun bb => bb.addr == pcv - 1) = some b)
    (hen : b.enabled = true)
    (hown : ¬ b.pid = pid)
    (hsi : si = TRAP_BRKPT ∨ si = SI_KERNEL)
    (htr : traceeFind s pid = some t)
    (hev : s.events = e :: rest)
    (hgs : getsiginfoAfterWait e = .ok v) :
    applyNewStatus (fuel + 3) ctx (.stopped pid 5 (some si) pcv) s
      = .ok (none,
        ({ (s.logAct (.disableBp b.addr)).logAct (.step t.pid)
            with events := rest }.logAct (.enableBp b.addr)).setStop pid
          .interrupt) ∧
    (({ (s.logAct (.disableBp b.addr)).logAct (.step t.pid)
        with events := rest }.logAct (.enableBp b.addr)).setStop pid
          .interrupt).log
      = s.log ++ [.disableBp b.addr, .step t.pid, .enableBp b.addr] ∧
    soaB (({ (s.logAct (.disableBp b.addr)).logAct (.step t.pid)
        with events := rest }.logAct (.enableBp b.addr)).setStop pid
          .interrupt) pid = true := by
  have htpid : t.pid = pid := by simpa using List.find?_some htr
  have htt : ¬ si = TRAP_TRACE := by
    rcases hsi with h | h <;> (subst h; decide)
  have hpb : (pid == b.pid) = false := by
    simp only [beq_eq_false_iff_ne, ne_eq]
    exact fun hc => hown hc.symm
  refine ⟨?_, ?_, soaB_setStop_self _ pid .interrupt⟩
  · simp only [applyNewStatus]
    rw [if_pos (show (5 : Int) = SIGTRAP by decide), if_neg htt,
      if_pos hsi, htr]
    dsimp only
    rw [if_pos htmp, hfindb]
    dsimp only
    rw [if_neg (show ¬ ((b.temporary && (pid == b.pid)) = true) by
      simp [hpb])]
    rw [if_pos hen]
    have hss := singleStep_first_status fuel ctx t.pid
      (s.logAct (.disableBp b.addr)) t e rest v
      (by rw [htpid]; exact htr) hev hgs
    rw [hss, ok_bind, pure_bind_err]
    dsimp only [St.ensureSetStop, St.logAct, traceeFind]
    have htr5 : List.find? (fun u => u.pid == pid) s.tracees = some t := htr
    rw [htr5]
    rfl
  · show ((s.log ++ [.disableBp b.addr]) ++ [.step t.pid])
        ++ [.enableBp b.addr]
      = s.log ++ [.disableBp b.addr, .step t.pid, .enableBp b.addr]
    simp

/-- **C2, witness.**  Thread 2 hits the enabled breakpoint at 100 owned by
thread 1 while a temporary breakpoint exists: `apply_new_status` returns
`None`, the ghost log shows disable/step/re-enable, and thread 2 is marked
stopped. -/
theorem c2_unexpected_thread_step_over_witness :
    applyNewStatus 5 ctxC2W (.stopped 2 5 (some 1) 101) stC2W
      = .ok (none, stC2WEnd) ∧
    stC2WEnd.log = [.disableBp 100, .step 2, .enableBp 100] ∧
    soaB stC2WEnd 2 = true := by
  have h := c2_unexpected_thread_step_over 2 ctxC2W stC2W 2 1 101
    ⟨100, 1, true, false⟩ ⟨2, .stopped .interrupt⟩ .other [] 0
    (by decide) (by decide) (by decide) (by decide) (Or.inl rfl)
    (by decide) (by decide) (by decide)
  refine ⟨?_, by decide, by decide⟩
  rw [h.1]
  decide
end Tracer

namespace Dwarf

theorem bsLoop_found_spec (cmp : Nat → Ordering) :
    ∀ fuel l r m, bsLoop cmp fuel l r = .found m →
    l ≤ m ∧ m < r ∧ cmp m = .eq := by
  intro fuel
  induction fuel with
  | zero => intro l r m h; simp [bsLoop] at h
  | succ f ih =>
    intro l r m h
    simp only [bsLoop] at h
    by_cases hlr : l < r
    · rw [if_pos hlr] at h
      cases hc : cmp (l + (r - l) / 2) with
      | lt =>
        rw [hc] at h
        obtain ⟨h1, h2, h3⟩ := ih _ _ _ h
        exact ⟨by omega, h2, h3⟩
      | gt =>
        rw [hc] at h
        obtain ⟨h1, h2, h3⟩ := ih _ _ _ h
        exact ⟨h1, by omega, h3⟩
      | eq =>
        rw [hc] at h
        cases h
        exact ⟨by omega, by omega, hc⟩
    · rw [if_neg hlr] at h
      cases h

theorem bsLoop_notFound_bounds (cmp : Nat → Ordering) :
    ∀ fuel l r p, l ≤ r → bsLoop cmp fuel l r = .notFound p →
    l ≤ p ∧ p ≤ r := by
  intro fuel
  induction fuel with
  | zero =>
    intro l r p hlr h
    simp only [bsLoop] at h
    cases h
    omega
  | succ f ih =>
    intro l r p hlr h
    simp only [bsLoop] at h
    by_cases hlt : l < r
    · rw [if_pos hlt] at h
      cases hc : cmp (l + (r - l) / 2) with
      | lt =>
        rw [hc] at h
        have := ih _ _ _ (by omega) h
        omega
      | gt =>
        rw [hc] at h
        have := ih _ _ _ (by omega) h
        omega
      | eq => rw [hc] at h; cases h
    · rw [if_neg hlt] at h
      cases h
      omega

theorem bsLoop_complete (cmp : Nat → Ordering) (n : Nat)
    (hlt : ∀ i j, i ≤ j → j < n → cmp j = .lt → cmp i = .lt)
    (hgt : ∀ i j, i ≤ j → j < n → cmp i = .gt → cmp j = .gt) :
    ∀ fuel l r m, r ≤ n → r - l ≤ fuel → l ≤ m → m < r → cmp m = .eq →
    ∃ k, bsLoop cmp fuel l r = .found k := by
  intro fuel
  induction fuel with
  | zero => intro l r m _ h2 h3 h4 _; omega
  | succ f ih =>
    intro l r m hrn hfuel hlm hmr hme
    have hlr : l < r := by omega
    cases hc : cmp (l + (r - l) / 2) with
    | eq =>
      refine ⟨l + (r - l) / 2, ?_⟩
      simp only [bsLoop]
      rw [if_pos hlr]
      rw [hc]
    | lt =>
      have hmid : ¬ m ≤ l + (r - l) / 2 := by
        intro hle
        have := hlt m (l + (r - l) / 2) hle (by omega) hc
        rw [hme] at this
        cases this
      obtain ⟨k, hk⟩ := ih (l + (r - l) / 2 + 1) r m hrn (by omega)
        (by omega) hmr hme
      refine ⟨k, ?_⟩
      simp only [bsLoop]
      rw [if_pos hlr]
      rw [hc]
      exact hk
    | gt =>
      have hmid : m < l + (r - l) / 2 := by
        rcases Nat.lt_or_ge m (l + (r - l) / 2) with h | h
        · exact h
        · exfalso
          have := hgt (l + (r - l) / 2) m h (by omega) hc
          rw [hme] at this
          cases this
      obtain ⟨k, hk⟩ := ih l (l + (r - l) / 2) m (by omega) (by omega)
        hlm hmid hme
      refine ⟨k, ?_⟩
      simp only [bsLoop]
      rw [if_pos hlr]
      rw [hc]
      exact hk

theorem bsLoop_notFound_sep (cmp : Nat → Ordering) (n : Nat)
    (hlt : ∀ i j, i ≤ j → j < n → cmp j = .lt → cmp i = .lt)
    (hgt : ∀ i j, i ≤ j → j < n → cmp i = .gt → cmp j = .gt)
    (hne : ∀ i, i < n → cmp i ≠ .eq) :
    ∀ fuel l r p, r ≤ n → r - l ≤ fuel → l ≤ r →
    bsLoop cmp fuel l r = .notFound p →
    (∀ i, l ≤ i → i < p → cmp i = .lt) ∧
    (∀ i, p ≤ i → i < r → cmp i = .gt) := by
  intro fuel
  induction fuel with
  | zero =>
    intro l r p hrn hfuel hlr h
    simp only [bsLoop] at h
    cases h
    exact ⟨fun i h1 h2 => by omega, fun i h1 h2 => by omega⟩
  | succ f ih =>
    intro l r p hrn hfuel hlr h
    simp only [bsLoop] at h
    by_cases hlr2 : l < r
    · rw [if_pos hlr2] at h
      cases hc : cmp (l + (r - l) / 2) with
      | eq => exact absurd hc (hne _ (by omega))
      | lt =>
        rw [hc] at h
        have hb := bsLoop_notFound_bounds cmp f _ _ _ (by omega) h
        obtain ⟨A, B⟩ := ih _ _ _ hrn (by omega) (by omega) h
        refine ⟨?_, B⟩
        intro i hi1 hi2
        by_cases him : i ≤ l + (r - l) / 2
        · exact hlt i _ him (by omega) hc
        · exact A i (by omega) hi2
      | gt =>
        rw [hc] at h
        have hb := bsLoop_notFound_bounds cmp f _ _ _ (by omega) h
        obtain ⟨A, B⟩ := ih _ _ _ (by omega) (by omega) (by omega) h
        refine ⟨A, ?_⟩
        intro i hi1 hi2
        by_cases him : i < l + (r - l) / 2
        · exact B i hi1 him
        · exact hgt _ i (by omega) (by omega) hc
    · rw [if_neg hlr2] at h
      cases h
      exact ⟨fun i h1 h2 => by omega, fun i h1 h2 => by omega⟩
end Dwarf

namespace Dwarf

theorem getD_eq_elem {α : Type} (l : List α) (d : α) (i : Nat)
    (h : i < l.length) : l.getD i d = l[i] := by
  rw [List.getD_eq_getElem?_getD, List.getElem?_eq_getElem h]
  rfl

theorem sorted_getD_strict (keys : List Nat)
    (hs : List.Pairwise (· < ·) keys) (i j : Nat) (hij : i < j)
    (hj : j < keys.length) : keys.getD i 0 < keys.getD j 0 := by
  have hi : i < keys.length := lt_trans hij hj
  rw [getD_eq_elem keys 0 i hi, getD_eq_elem keys 0 j hj]
  exact List.pairwise_iff_getElem.mp hs i j hi hj hij

theorem sorted_getD_mono (keys : List Nat)
    (hs : List.Pairwise (· < ·) keys) (i j : Nat) (hij : i ≤ j)
    (hj : j < keys.length) : keys.getD i 0 ≤ keys.getD j 0 := by
  rcases Nat.lt_or_ge i j with h | h
  · exact le_of_lt (sorted_getD_strict keys hs i j h hj)
  · have : i = j := by omega
    rw [this]

theorem binarySearchNat_window (keys : List Nat) (target : Nat)
    (hs : List.Pairwise (· < ·) keys) :
    (∀ pos, binarySearchNat keys target = .found pos →
      pos + 1 ≤ keys.length ∧
      (∀ i, i < pos + 1 → keys.getD i 0 ≤ target) ∧
      (∀ i, pos + 1 ≤ i → i < keys.length → target < keys.getD i 0)) ∧
    (∀ pos, binarySearchNat keys target = .notFound pos →
      pos ≤ keys.length ∧
      (∀ i, i < pos → keys.getD i 0 ≤ target) ∧
      (∀ i, pos ≤ i → i < keys.length → target < keys.getD i 0)) := by
  have hlt : ∀ i j, i ≤ j → j < keys.length →
      (fun k => compare (keys.getD k 0) target) j = .lt →
      (fun k => compare (keys.getD k 0) target) i = .lt := by
    intro i j hij hj hcj
    simp only [Nat.compare_eq_lt] at hcj ⊢
    exact lt_of_le_of_lt (sorted_getD_mono keys hs i j hij hj) hcj
  have hgt : ∀ i j, i ≤ j → j < keys.length →
      (fun k => compare (keys.getD k 0) target) i = .gt →
      (fun k => compare (keys.getD k 0) target) j = .gt := by
    intro i j hij hj hci
    simp only [Nat.compare_eq_gt] at hci ⊢
    exact lt_of_lt_of_le hci (sorted_getD_mono keys hs i j hij hj)
  constructor
  · intro pos h
    obtain ⟨h1, h2, h3⟩ := bsLoop_found_spec _ _ _ _ _ h
    have hkey : keys.getD pos 0 = target := Nat.compare_eq_eq.mp h3
    refine ⟨by omega, ?_, ?_⟩
    · intro i hi
      calc keys.getD i 0 ≤ keys.getD pos 0 :=
            sorted_getD_mono keys hs i pos (by omega) h2
        _ = target := hkey
    · intro i hi1 hi2
      calc target = keys.getD pos 0 := hkey.symm
        _ < keys.getD i 0 := sorted_getD_strict keys hs pos i (by omega) hi2
  · intro pos h
    have hne : ∀ m, m < keys.length →
        (fun k => compare (keys.getD k 0) target) m ≠ .eq := by
      intro m hm hceq
      obtain ⟨k, hk⟩ := bsLoop_complete _ keys.length hlt hgt
        (keys.length + 1) 0 keys.length m (le_refl _) (by omega)
        (by omega) hm hceq
      rw [show bsLoop (fun k => compare (keys.getD k 0) target)
        (keys.length + 1) 0 keys.length = binarySearchNat keys target
        from rfl] at hk
      rw [h] at hk
      cases hk
    have hb := bsLoop_notFound_bounds
      (fun k => compare (keys.getD k 0) target)
      (keys.length + 1) 0 keys.length pos (by omega) h
    obtain ⟨A, B⟩ := bsLoop_notFound_sep _ keys.length hlt hgt hne
      (keys.length + 1) 0 keys.length pos (le_refl _) (by omega) (by omega) h
    refine ⟨by omega, ?_, ?_⟩
    · intro i hi
      exact le_of_lt (Nat.compare_eq_lt.mp (A i (by omega) hi))
    · intro i hi1 hi2
      exact Nat.compare_eq_gt.mp (B i hi1 hi2)

theorem scanBack_none_of (u : CompUnit) (pc : Nat) :
    ∀ n, (∀ j, j < n → ¬ coveringFunctionAt u pc j) →
    scanBack u pc n = none := by
  intro n
  induction n with
  | zero => intro _; rfl
  | succ m ih =>
    intro h
    simp only [scanBack]
    cases hdie : (u.entries.getD (u.die_ranges.getD m default).die_idx
        default).die with
    | function f =>
      rw [if_neg ?_]
      · exact ih fun j hj => h j (by omega)
      · intro hcov
        apply h m (by omega)
        refine ⟨by rw [hdie]; rfl, ?_⟩
        simpa using hcov
    | var v => exact ih fun j hj => h j (by omega)
    | lexicalBlock lb => exact ih fun j hj => h j (by omega)
    | other => exact ih fun j hj => h j (by omega)

theorem scanBack_max (u : CompUnit) (pc : Nat) :
    ∀ n j, j < n → coveringFunctionAt u pc j →
    (∀ k, j < k → k < n → ¬ coveringFunctionAt u pc k) →
    scanBack u pc n = some (u.die_ranges.getD j default).die_idx := by
  intro n
  induction n with
  | zero => intro j hj _ _; omega
  | succ m ih =>
    intro j hj hcf hmax
    simp only [scanBack]
    by_cases hjm : j = m
    · subst hjm
      obtain ⟨hf, h1, h2⟩ := hcf
      cases hdie : (u.entries.getD (u.die_ranges.getD j default).die_idx
          default).die with
      | function f =>
        rw [if_pos (by
          simp only [Bool.and_eq_true, decide_eq_true_eq]
          exact ⟨h1, h2⟩)]
      | var v => rw [hdie] at hf; cases hf
      | lexicalBlock lb => rw [hdie] at hf; cases hf
      | other => rw [hdie] at hf; cases hf
    · have hjm2 : j < m := by omega
      have hncm := hmax m (by omega) (by omega)
      cases hdie : (u.entries.getD (u.die_ranges.getD m default).die_idx
          default).die with
      | function f =>
        rw [if_neg ?_]
        · exact ih j hjm2 hcf fun k hk1 hk2 => hmax k hk1 (by omega)
        · intro hcov
          apply hncm
          refine ⟨by rw [hdie]; rfl, ?_⟩
          simpa using hcov
      | var v => exact ih j hjm2 hcf fun k hk1 hk2 => hmax k hk1 (by omega)
      | lexicalBlock lb =>
        exact ih j hjm2 hcf fun k hk1 hk2 => hmax k hk1 (by omega)
      | other => exact ih j hjm2 hcf fun k hk1 hk2 => hmax k hk1 (by omega)

theorem exists_max_cf (u : CompUnit) (pc : Nat) :
    ∀ n, (∃ j, j < n ∧ coveringFunctionAt u pc j) →
    ∃ j, j < n ∧ coveringFunctionAt u pc j ∧
      ∀ k, j < k → k < n → ¬ coveringFunctionAt u pc k := by
  intro n
  induction n with
  | zero => intro ⟨j, hj, _⟩; omega
  | succ m ih =>
    intro ⟨j, hj, hcf⟩
    by_cases hm : coveringFunctionAt u pc m
    · exact ⟨m, by omega, hm, fun k hk1 hk2 => by omega⟩
    · have hjm : j < m := by
        rcases Nat.lt_or_ge j m with h | h
        · exact h
        · exfalso
          have : j = m := by omega
          exact hm (this ▸ hcf)
      obtain ⟨j2, hj2, hcf2, hmax2⟩ := ih ⟨j, hjm, hcf⟩
      refine ⟨j2, by omega, hcf2, ?_⟩
      intro k hk1 hk2
      by_cases hkm : k = m
      · exact hkm ▸ hm
      · exact hmax2 k hk1 (by omega)
end Dwarf

namespace Dwarf

theorem key_getD (l : List DieRange) (i : Nat) (h : i < l.length) :
    (l.map fun dr => dr.range.low).getD i 0 = (l.getD i default).range.low := by
  rw [getD_eq_elem (l.map fun dr => dr.range.low) 0 i
    (by rw [List.length_map]; exact h), getD_eq_elem l default i h,
    List.getElem_map]

/-- **C4, counterexample.**  One unit with a single function whose range
is `[0, 10]`: at `pc = 10` no half-open range `[begin, end)` contains
`pc`, so the claim requires `None`, but `find_function_by_pc` compares
inclusively and returns the function. -/
theorem c4_counterexample :
    (∀ dr ∈ u4.die_ranges, ¬(dr.range.low ≤ 10 ∧ 10 < dr.range.high)) ∧
    find_function_by_pc [u4] 10 = some (u4, 0) := by
  exact ⟨by decide, by decide⟩

/-- **C4 (amended).**  Ranges are taken inclusive of their end, as the
source compares them (`begin ≤ pc && pc ≤ end`).  First conjunct: when no
function `die_range` of any unit contains `pc`, `find_function_by_pc`
returns `None`.  Second conjunct: when the covering unit's `die_ranges`
are strictly sorted by `begin`, covering function ranges are mutually
nested, and some function range covers `pc`, the query returns a function
range covering `pc` that is contained in every covering function range —
the innermost one — found by binary-searching on `begin` and scanning
backward from the insertion point. -/
theorem c4_find_function_by_pc (units : List CompUnit) (pc : Nat) :
    ((∀ u ∈ units, ∀ j, j < u.die_ranges.length →
        ¬ coveringFunctionAt u pc j) →
      find_function_by_pc units pc = none) ∧
    (∀ u, find_unit_by_pc units pc = some u →
      List.Pairwise (fun a b : DieRange => a.range.low < b.range.low)
        u.die_ranges →
      (∀ i, i < u.die_ranges.length → ∀ j, j < u.die_ranges.length →
        coveringFunctionAt u pc i → coveringFunctionAt u pc j →
        containedIn (u.die_ranges.getD i default).range
          (u.die_ranges.getD j default).range ∨
        containedIn (u.die_ranges.getD j default).range
          (u.die_ranges.getD i default).range) →
      ∀ j0, j0 < u.die_ranges.length → coveringFunctionAt u pc j0 →
      ∃ j, j < u.die_ranges.length ∧ coveringFunctionAt u pc j ∧
        find_function_by_pc units pc
          = some (u, (u.die_ranges.getD j default).die_idx) ∧
        ∀ k, k < u.die_ranges.length → coveringFunctionAt u pc k →
          containedIn (u.die_ranges.getD j default).range
            (u.die_ranges.getD k default).range) := by
  constructor
  · intro hno
    unfold find_function_by_pc
    cases hfu : find_unit_by_pc units pc with
    | none => rfl
    | some u =>
      have humem : u ∈ units := List.mem_of_find?_eq_some hfu
      have hlen : (u.die_ranges.map fun dr => dr.range.low).length
          = u.die_ranges.length := List.length_map _ _
      show Option.map (fun die_idx => (u, die_idx))
        (scanBack u pc
          (match binarySearchNat (u.die_ranges.map fun dr => dr.range.low)
              pc with
            | .found pos => pos + 1
            | .notFound pos => pos)) = none
      cases hbs : binarySearchNat (u.die_ranges.map fun dr => dr.range.low)
          pc with
      | found pos =>
        obtain ⟨_, hpos, _⟩ := bsLoop_found_spec _ _ _ _ _ hbs
        dsimp only
        rw [scanBack_none_of u pc (pos + 1)
          (fun j hj => hno u humem j (by omega))]
        rfl
      | notFound pos =>
        have hb := bsLoop_notFound_bounds _ _ _ _ _ (by omega) hbs
        dsimp only
        rw [scanBack_none_of u pc pos
          (fun j hj => hno u humem j (by omega))]
        rfl
  · intro u hfu hsort hnest j0 hj0len hcf0
    have hkeysPW : List.Pairwise (· < ·)
        (u.die_ranges.map fun dr => dr.range.low) :=
      List.pairwise_map.mpr hsort
    have hlen : (u.die_ranges.map fun dr => dr.range.low).length
        = u.die_ranges.length := List.length_map _ _
    have hwin := binarySearchNat_window
      (u.die_ranges.map fun dr => dr.range.low) pc hkeysPW
    obtain ⟨fp, hfpeq, hfpl, P1, P2⟩ :
        ∃ fp, (match binarySearchNat
            (u.die_ranges.map fun dr => dr.range.low) pc with
          | .found pos => pos + 1
          | .notFound pos => pos) = fp ∧
          fp ≤ (u.die_ranges.map fun dr => dr.range.low).length ∧
          (∀ i, i < fp →
            (u.die_ranges.map fun dr => dr.range.low).getD i 0 ≤ pc) ∧
          (∀ i, fp ≤ i →
            i < (u.die_ranges.map fun dr => dr.range.low).length →
            pc < (u.die_ranges.map fun dr => dr.range.low).getD i 0) := by
      cases hbs : binarySearchNat
          (u.die_ranges.map fun dr => dr.range.low) pc with
      | found pos =>
        obtain ⟨h1, h2, h3⟩ := hwin.1 pos hbs
        exact ⟨pos + 1, rfl, h1, h2, h3⟩
      | notFound pos =>
        obtain ⟨h1, h2, h3⟩ := hwin.2 pos hbs
        exact ⟨pos, rfl, h1, h2, h3⟩
    have hpref : ∀ i, i < u.die_ranges.length →
        coveringFunctionAt u pc i → i < fp := by
      intro i hi hcf
      by_contra hge
      push_neg at hge
      have h2 := P2 i hge (by omega)
      rw [key_getD u.die_ranges i hi] at h2
      have := hcf.2.1
      omega
    obtain ⟨j, hjfp, hcfj, hmax⟩ :=
      exists_max_cf u pc fp ⟨j0, hpref j0 hj0len hcf0, hcf0⟩
    have hjlen : j < u.die_ranges.length := by omega
    have hscan := scanBack_max u pc fp j hjfp hcfj hmax
    refine ⟨j, hjlen, hcfj, ?_, ?_⟩
    · unfold find_function_by_pc
      rw [hfu]
      show Option.map (fun die_idx => (u, die_idx))
        (scanBack u pc
          (match binarySearchNat (u.die_ranges.map fun dr => dr.range.low)
              pc with
            | .found pos => pos + 1
            | .notFound pos => pos))
        = some (u, (u.die_ranges.getD j default).die_idx)
      rw [hfpeq, hscan]
      rfl
    · intro k hklen hcfk
      have hkfp : k < fp := hpref k hklen hcfk
      have hkj : k ≤ j := by
        by_contra hgt
        push_neg at hgt
        exact hmax k hgt hkfp hcfk
      by_cases hkj2 : k = j
      · rw [hkj2]
        exact ⟨le_refl _, le_refl _⟩
      · have hklt : k < j := by omega
        have hlow : (u.die_ranges.getD k default).range.low
            < (u.die_ranges.getD j default).range.low := by
          have := sorted_getD_strict _ hkeysPW k j hklt (by omega)
          rwa [key_getD u.die_ranges k hklen,
            key_getD u.die_ranges j hjlen] at this
        rcases hnest j hjlen k hklen hcfj hcfk with h | h
        · exact h
        · exfalso
          have := h.1
          omega

/-- **C4, witness.**  At `pc = 5` inside the one-function unit, the query
returns the function. -/
theorem c4_find_function_by_pc_witness :
    find_function_by_pc [u4] 5 = some (u4, 0) := by
  obtain ⟨j, hj, _, heq, _⟩ := (c4_find_function_by_pc [u4] 5).2 u4
    (by decide) (by decide) (by decide) 0 (by decide) (by decide)
  have hlen1 : u4.die_ranges.length = 1 := rfl
  have hj0 : j = 0 := by omega
  rw [hj0] at heq
  exact heq

theorem cmpOpt_eq_iff (a b : Option Nat) :
    cmpOpt a b = Ordering.eq ↔ a = b := by
  cases a <;> cases b <;> simp [cmpOpt, Nat.compare_eq_eq]

theorem cmpOpt_lt_asymm (a b : Option Nat)
    (h1 : cmpOpt a b = Ordering.lt) (h2 : cmpOpt b a = Ordering.lt) :
    False := by
  cases a <;> cases b <;>
    simp [cmpOpt, Nat.compare_eq_lt] at h1 h2 <;> omega

theorem cmpOpt_lt_trans (a b c : Option Nat)
    (h1 : cmpOpt a b = Ordering.lt) (h2 : cmpOpt b c = Ordering.lt) :
    cmpOpt a c = Ordering.lt := by
  cases a <;> cases b <;> cases c <;>
    simp [cmpOpt, Nat.compare_eq_lt] at h1 h2 ⊢ <;> omega

theorem cmpOpt_gt_of_lt_gt (a b t : Option Nat)
    (hab : cmpOpt a b = Ordering.lt) (hat : cmpOpt a t = Ordering.gt) :
    cmpOpt b t = Ordering.gt := by
  cases a <;> cases b <;> cases t <;>
    simp [cmpOpt, Nat.compare_eq_lt, Nat.compare_eq_gt] at hab hat ⊢ <;>
    omega

theorem sorted_getD_cmpOpt (keys : List (Option Nat))
    (hs : List.Pairwise (fun a b => cmpOpt a b = Ordering.lt) keys)
    (i j : Nat) (hij : i < j) (hj : j < keys.length) :
    cmpOpt (keys.getD i none) (keys.getD j none) = Ordering.lt := by
  have hi : i < keys.length := lt_trans hij hj
  rw [getD_eq_elem keys none i hi, getD_eq_elem keys none j hj]
  exact List.pairwise_iff_getElem.mp hs i j hi hj hij

/-- **C10.**  `deref_die` on a `Global(offset)` reference, with units
sorted strictly by their `Option` start offsets (derived `Ord`, `None`
least): an offset equal to any unit's start offset resolves to `None`; an
offset preceding the first unit's offset resolves to `None`; and an entry
can come back only from a binary-search miss strictly inside some unit
(insertion point at least 1). -/
theorem c10_deref_die_global (units : List CompUnit) (du : CompUnit)
    (off : Nat)
    (hs : List.Pairwise (fun a b => cmpOpt a b = Ordering.lt)
      (units.map fun u => u.offset)) :
    ((∃ u ∈ units, u.offset = some off) →
      deref_die units du (.global off) = none) ∧
    (∀ u0, units.head? = some u0 →
      cmpOpt (some off) u0.offset = Ordering.lt →
      deref_die units du (.global off) = none) ∧
    (∀ e, deref_die units du (.global off) = some e →
      ∃ pos, binarySearchOpt (units.map fun u => u.offset) (some off)
        = .notFound (pos + 1)) := by
  have hlt : ∀ i j, i ≤ j → j < (units.map fun u => u.offset).length →
      cmpOpt ((units.map fun u => u.offset).getD j none) (some off)
        = Ordering.lt →
      cmpOpt ((units.map fun u => u.offset).getD i none) (some off)
        = Ordering.lt := by
    intro i j hij hj hcj
    rcases Nat.eq_or_lt_of_le hij with h | h
    · rw [h]; exact hcj
    · exact cmpOpt_lt_trans _ _ _ (sorted_getD_cmpOpt _ hs i j h hj) hcj
  have hgt : ∀ i j, i ≤ j → j < (units.map fun u => u.offset).length →
      cmpOpt ((units.map fun u => u.offset).getD i none) (some off)
        = Ordering.gt →
      cmpOpt ((units.map fun u => u.offset).getD j none) (some off)
        = Ordering.gt := by
    intro i j hij hj hci
    rcases Nat.eq_or_lt_of_le hij with h | h
    · rw [← h]; exact hci
    · exact cmpOpt_gt_of_lt_gt _ _ _ (sorted_getD_cmpOpt _ hs i j h hj) hci
  refine ⟨?_, ?_, ?_⟩
  · rintro ⟨u, hu, huo⟩
    obtain ⟨m, hm, hum⟩ := List.getElem_of_mem hu
    have hkey : (units.map fun x => x.offset).getD m none = some off := by
      rw [getD_eq_elem _ none m (by rw [List.length_map]; exact hm),
        List.getElem_map, hum, huo]
    have hcm : cmpOpt ((units.map fun u => u.offset).getD m none)
        (some off) = Ordering.eq := by
      rw [hkey]
      exact (cmpOpt_eq_iff _ _).mpr rfl
    obtain ⟨k, hk⟩ := bsLoop_complete _ _ hlt hgt
      ((units.map fun u => u.offset).length + 1) 0
      ((units.map fun u => u.offset).length) m (le_refl _) (by omega)
      (Nat.zero_le _) (by rw [List.length_map]; exact hm) hcm
    have hbs : binarySearchOpt (units.map fun u => u.offset) (some off)
        = .found k := hk
    show (match binarySearchOpt (units.map fun u => u.offset)
        (some off) with
      | .found _ => none
      | .notFound 0 => none
      | .notFound (pos + 1) =>
        let unit := units.getD pos default
        findEntry unit (off - unit.offset.getD 0)) = none
    rw [hbs]
  · intro u0 hu0 hlt0
    cases units with
    | nil => simp at hu0
    | cons a l =>
      have ha : a = u0 := by simpa using hu0
      subst ha
      have hne : ∀ i,
          i < ((a :: l).map fun u => u.offset).length →
          cmpOpt (((a :: l).map fun u => u.offset).getD i none) (some off)
            ≠ Ordering.eq := by
        intro i hi hceq
        have hki : ((a :: l).map fun u => u.offset).getD i none
            = some off := (cmpOpt_eq_iff _ _).mp hceq
        rcases Nat.eq_zero_or_pos i with h0 | h0
        · subst h0
          have : a.offset = some off := hki
          rw [this] at hlt0
          simp [cmpOpt, Nat.compare_eq_lt] at hlt0
        · have hs0 := sorted_getD_cmpOpt _ hs 0 i h0 hi
          rw [hki] at hs0
          have hk0 : ((a :: l).map fun u => u.offset).getD 0 none
              = a.offset := rfl
          rw [hk0] at hs0
          exact cmpOpt_lt_asymm _ _ hlt0 hs0
      cases hbs : binarySearchOpt ((a :: l).map fun u => u.offset)
          (some off) with
      | found k =>
        obtain ⟨_, hk2, hk3⟩ := bsLoop_found_spec _ _ _ _ _ hbs
        exact absurd hk3 (hne k hk2)
      | notFound p =>
        show (match binarySearchOpt ((a :: l).map fun u => u.offset)
            (some off) with
          | .found _ => none
          | .notFound 0 => none
          | .notFound (pos + 1) =>
            let unit := (a :: l).getD pos default
            findEntry unit (off - unit.offset.getD 0)) = none
        rw [hbs]
        rcases p with _ | q
        · rfl
        · exfalso
          obtain ⟨hL, _⟩ := bsLoop_notFound_sep _ _ hlt hgt hne _ 0
            (((a :: l).map fun u => u.offset).length) (q + 1) (le_refl _)
            (by omega) (Nat.zero_le _) hbs
          have hc0 := hL 0 (Nat.zero_le _) (by omega)
          have hk0 : ((a :: l).map fun u => u.offset).getD 0 none
              = a.offset := rfl
          rw [hk0] at hc0
          exact cmpOpt_lt_asymm _ _ hlt0 hc0
  · intro e he
    have he' : (match binarySearchOpt (units.map fun u => u.offset)
        (some off) with
      | .found _ => none
      | .notFound 0 => none
      | .notFound (pos + 1) =>
        let unit := units.getD pos default
        findEntry unit (off - unit.offset.getD 0)) = some e := he
    cases hbs : binarySearchOpt (units.map fun u => u.offset)
        (some off) with
    | found k =>
      rw [hbs] at he'
      exact Option.noConfusion he'
    | notFound p =>
      rcases p with _ | q
      · rw [hbs] at he'
        exact Option.noConfusion he'
      · exact ⟨q, rfl⟩

/-- **C10, witness.**  With units at offsets 10 and 20: dereferencing
global offset 10 (a unit's exact start) and global offset 1 (before the
first unit) both give `None`. -/
theorem c10_deref_die_global_witness :
    deref_die [uA, uB] uA (.global 10) = none ∧
    deref_die [uA, uB] uA (.global 1) = none := by
  refine ⟨(c10_deref_die_global [uA, uB] uA 10 (by decide)).1
    ⟨uA, by decide, by decide⟩, ?_⟩
  exact (c10_deref_die_global [uA, uB] uA 1 (by decide)).2.1 uA rfl
    (by decide)


theorem reachL_nil (u : CompUnit) (i : Nat) : ¬ ReachL u [] i := by
  intro h
  induction h with
  | base h => simp at h
  | step _ _ ih => exact ih

theorem reachL_mono (u : CompUnit) (r1 r2 : List Nat)
    (hsub : ∀ x ∈ r1, x ∈ r2) (i : Nat) (h : ReachL u r1 i) :
    ReachL u r2 i := by
  induction h with
  | base h => exact .base (hsub _ h)
  | step _ hc ih => exact .step ih hc

theorem reachL_append (u : CompUnit) (a b : List Nat) (i : Nat) :
    ReachL u (a ++ b) i ↔ ReachL u a i ∨ ReachL u b i := by
  constructor
  · intro h
    induction h with
    | base h =>
      rcases List.mem_append.mp h with h | h
      · exact Or.inl (.base h)
      · exact Or.inr (.base h)
    | step _ hc ih =>
      rcases ih with h | h
      · exact Or.inl (.step h hc)
      · exact Or.inr (.step h hc)
  · intro h
    rcases h with h | h
    · exact reachL_mono u a _ (fun x hx => List.mem_append.mpr (Or.inl hx))
        i h
    · exact reachL_mono u b _ (fun x hx => List.mem_append.mpr (Or.inr hx))
        i h

theorem reachL_children (u : CompUnit) (q : List Nat) (p : Nat) (hp : p ∈ q)
    (i : Nat) (h : ReachL u ((u.entries.getD p default).node.children) i) :
    ReachL u q i := by
  induction h with
  | base h => exact .step (.base hp) h
  | step _ hc ih => exact .step ih hc

theorem reachL_cons_iff (u : CompUnit) (q : List Nat) (p i : Nat) :
    ReachL u (p :: q) i ↔
      i = p ∨ ReachL u ((u.entries.getD p default).node.children) i ∨
        ReachL u q i := by
  constructor
  · intro h
    induction h with
    | base h =>
      rcases List.mem_cons.mp h with h | h
      · exact Or.inl h
      · exact Or.inr (Or.inr (.base h))
    | step hp hc ih =>
      rcases ih with h | h | h
      · exact Or.inr (Or.inl (.base (h ▸ hc)))
      · exact Or.inr (Or.inl (.step h hc))
      · exact Or.inr (Or.inr (.step h hc))
  · intro h
    rcases h with h | h | h
    · exact .base (h ▸ List.mem_cons_self p q)
    · exact reachL_children u (p :: q) p (List.mem_cons_self p q) i h
    · exact reachL_mono u q _ (fun x hx => List.mem_cons_of_mem _ hx) i h

theorem reachL_lt (u : CompUnit) (roots : List Nat)
    (hroots : ∀ r ∈ roots, r < u.entries.length)
    (hchild : ∀ j, j < u.entries.length →
      ∀ c ∈ (u.entries.getD j default).node.children,
        j < c ∧ c < u.entries.length)
    (i : Nat) (h : ReachL u roots i) : i < u.entries.length := by
  induction h with
  | base h => exact hroots _ h
  | step hp hc ih => exact (hchild _ ih _ hc).2

theorem bfsMeasure_cons (N i : Nat) (q : List Nat) :
    bfsMeasure N (i :: q) = (N + 1) ^ (N - i) + bfsMeasure N q := rfl

theorem bfsMeasure_append (N : Nat) (a b : List Nat) :
    bfsMeasure N (a ++ b) = bfsMeasure N a + bfsMeasure N b := by
  simp [bfsMeasure, List.sum_append]

theorem bfsMeasure_children_lt (N i : Nat) (hi : i < N) (cs : List Nat)
    (hcs : ∀ c ∈ cs, i < c ∧ c < N) (hnd : cs.Nodup) :
    bfsMeasure N cs < (N + 1) ^ (N - i) := by
  have hterm : ∀ x ∈ cs.map fun c => (N + 1) ^ (N - c),
      x ≤ (N + 1) ^ (N - i - 1) := by
    intro x hx
    obtain ⟨c, hc, rfl⟩ := List.mem_map.mp hx
    have := hcs c hc
    exact Nat.pow_le_pow_right (by omega) (by omega)
  have hsum := List.sum_le_card_nsmul _ _ hterm
  have hlen : cs.length ≤ N - i - 1 := by
    have hsubset : cs.toFinset ⊆ Finset.Ioo i N := by
      intro x hx
      rw [List.mem_toFinset] at hx
      rw [Finset.mem_Ioo]
      exact hcs x hx
    have hcard := Finset.card_le_card hsubset
    rw [List.toFinset_card_of_nodup hnd, Nat.card_Ioo] at hcard
    exact hcard
  have hp : 0 < (N + 1) ^ (N - i - 1) := pow_pos (by omega) _
  have hexp : N - i = (N - i - 1) + 1 := by omega
  calc bfsMeasure N cs ≤ cs.length * (N + 1) ^ (N - i - 1) := by
        simpa [bfsMeasure, smul_eq_mul, List.length_map] using hsum
    _ ≤ N * (N + 1) ^ (N - i - 1) := Nat.mul_le_mul_right _ (by omega)
    _ < (N + 1) * (N + 1) ^ (N - i - 1) :=
        mul_lt_mul_of_pos_right (by omega) hp
    _ = (N + 1) ^ (N - i) := by rw [Nat.mul_comm, ← pow_succ, ← hexp]

theorem collectVars_mem (u : CompUnit) (pc : Nat)
    (hchild : ∀ j, j < u.entries.length →
      ∀ c ∈ (u.entries.getD j default).node.children,
        j < c ∧ c < u.entries.length)
    (hnodup : ∀ j, j < u.entries.length →
      ((u.entries.getD j default).node.children).Nodup) :
    ∀ fuel queue acc,
      (∀ q ∈ queue, q < u.entries.length) →
      bfsMeasure u.entries.length queue ≤ fuel →
      ∀ idx, idx ∈ collectVars u pc fuel queue acc ↔
        idx ∈ acc ∨ (ReachL u queue idx ∧ isVarValid u pc idx) := by
  intro fuel
  induction fuel with
  | zero =>
    intro queue acc hq hm idx
    cases queue with
    | nil =>
      simp only [collectVars, List.mem_reverse]
      constructor
      · exact Or.inl
      · rintro (h | ⟨hr, _⟩)
        · exact h
        · exact absurd hr (reachL_nil u idx)
    | cons i rest =>
      exfalso
      rw [bfsMeasure_cons] at hm
      have := pow_pos (show 0 < u.entries.length + 1 by omega)
        (u.entries.length - i)
      omega
  | succ fuel ih =>
    intro queue acc hq hm idx
    cases queue with
    | nil =>
      simp only [collectVars, List.mem_reverse]
      constructor
      · exact Or.inl
      · rintro (h | ⟨hr, _⟩)
        · exact h
        · exact absurd hr (reachL_nil u idx)
    | cons i rest =>
      have hiN : i < u.entries.length := hq i (List.mem_cons_self i rest)
      have hcs := hchild i hiN
      have hnd := hnodup i hiN
      have hstep : collectVars u pc (fuel + 1) (i :: rest) acc =
          collectVars u pc fuel
            (rest ++ (u.entries.getD i default).node.children)
            (match (u.entries.getD i default).die with
              | .var v => if valid_at u v pc then i :: acc else acc
              | _ => acc) := rfl
      have hq' : ∀ q ∈ rest ++ (u.entries.getD i default).node.children,
          q < u.entries.length := by
        intro q hmem
        rcases List.mem_append.mp hmem with h | h
        · exact hq q (List.mem_cons_of_mem _ h)
        · exact (hcs q h).2
      have hm' : bfsMeasure u.entries.length
          (rest ++ (u.entries.getD i default).node.children) ≤ fuel := by
        rw [bfsMeasure_append]
        rw [bfsMeasure_cons] at hm
        have hlt := bfsMeasure_children_lt u.entries.length i hiN
          ((u.entries.getD i default).node.children) (fun c hc => hcs c hc)
          hnd
        omega
      rw [hstep, ih _ _ hq' hm' idx, reachL_append, reachL_cons_iff]
      cases hdie : (u.entries.getD i default).die with
      | var v =>
        dsimp only
        by_cases hv : valid_at u v pc = true
        · rw [if_pos hv]
          have hvv : isVarValid u pc i := ⟨v, hdie, hv⟩
          have himp : idx = i → isVarValid u pc idx := fun h => h ▸ hvv
          simp only [List.mem_cons]
          tauto
        · rw [if_neg hv]
          have hnv : ¬ isVarValid u pc i := by
            rintro ⟨w, hdie2, hw⟩
            rw [hdie] at hdie2
            cases hdie2
            exact hv hw
          have himp : idx = i → ¬ isVarValid u pc idx := fun h => h ▸ hnv
          tauto
      | function f =>
        dsimp only
        have hnv : ¬ isVarValid u pc i := by
          rintro ⟨w, hdie2, _⟩
          rw [hdie] at hdie2
          cases hdie2
        have himp : idx = i → ¬ isVarValid u pc idx := fun h => h ▸ hnv
        tauto
      | lexicalBlock lb =>
        dsimp only
        have hnv : ¬ isVarValid u pc i := by
          rintro ⟨w, hdie2, _⟩
          rw [hdie] at hdie2
          cases hdie2
        have himp : idx = i → ¬ isVarValid u pc idx := fun h => h ▸ hnv
        tauto
      | other =>
        dsimp only
        have hnv : ¬ isVarValid u pc i := by
          rintro ⟨w, hdie2, _⟩
          rw [hdie] at hdie2
          cases hdie2
        have himp : idx = i → ¬ isVarValid u pc idx := fun h => h ▸ hnv
        tauto

theorem valid_at_iff_c5Valid (u : CompUnit) (fr : Range) (pc : Nat)
    (v : VariableDie) (hpc : fr.low ≤ pc ∧ pc ≤ fr.high)
    (hlb : ∀ lb_idx, v.lexical_block_idx = some lb_idx →
      ((u.entries.getD lb_idx default).die).isLexicalBlock = true) :
    valid_at u v pc = true ↔ c5Valid u fr pc v := by
  unfold valid_at c5Valid
  cases hv : v.lexical_block_idx with
  | none => exact iff_of_true rfl hpc
  | some lb_idx =>
    dsimp only
    obtain ⟨lb, hlbe⟩ :
        ∃ lb, (u.entries.getD lb_idx default).die = .lexicalBlock lb := by
      have h := hlb lb_idx hv
      cases hd : (u.entries.getD lb_idx default).die with
      | lexicalBlock lb => exact ⟨lb, rfl⟩
      | function f => rw [hd] at h; simp [DieVariant.isLexicalBlock] at h
      | var w => rw [hd] at h; simp [DieVariant.isLexicalBlock] at h
      | other => rw [hd] at h; simp [DieVariant.isLexicalBlock] at h
    rw [hlbe]
    simp only [List.any_eq_true, Bool.and_eq_true, decide_eq_true_eq]
    constructor
    · rintro ⟨r, hr, h1, h2⟩
      exact ⟨lb, rfl, r, hr, h1, h2⟩
    · rintro ⟨lb2, hlb2, r, hr, h1, h2⟩
      cases hlb2
      exact ⟨r, hr, h1, h2⟩

/-- **C5.**  With an arena whose child indices increase strictly and are
duplicate-free, well-linked lexical blocks, enough fuel for the BFS, and a
`pc` inside the function's range `fr` (the claim's premise), the variables
returned by `find_variables` are exactly the variable DIEs of the
function's subtree that the claim calls valid: with a lexical block, one
of the block's ranges covers `pc`; without one, the function's range
covers `pc`. -/
theorem c5_find_variables (u : CompUnit) (fnode : Node) (fr : Range)
    (pc fuel idx : Nat)
    (hchild : ∀ j, j < u.entries.length →
      ∀ c ∈ (u.entries.getD j default).node.children,
        j < c ∧ c < u.entries.length)
    (hnodup : ∀ j, j < u.entries.length →
      ((u.entries.getD j default).node.children).Nodup)
    (hroots : ∀ r ∈ fnode.children, r < u.entries.length)
    (hlinked : ∀ j, j < u.entries.length → linkedOk u j = true)
    (hfuel : bfsMeasure u.entries.length fnode.children ≤ fuel)
    (hpc : fr.low ≤ pc ∧ pc ≤ fr.high) :
    idx ∈ find_variables u fnode pc fuel ↔
      ReachL u fnode.children idx ∧
        ∃ v, (u.entries.getD idx default).die = .var v ∧
          c5Valid u fr pc v := by
  have h := collectVars_mem u pc hchild hnodup fuel fnode.children []
    hroots hfuel idx
  unfold find_variables
  rw [h]
  simp only [List.not_mem_nil, false_or]
  have hlbAux : ∀ v, (u.entries.getD idx default).die = .var v →
      idx < u.entries.length →
      ∀ lb_idx, v.lexical_block_idx = some lb_idx →
      ((u.entries.getD lb_idx default).die).isLexicalBlock = true := by
    intro v hdie hidxN lb_idx hlbi
    have hok := hlinked idx hidxN
    unfold linkedOk at hok
    rw [hdie] at hok
    rw [show varBlockIdx (DieVariant.var v) = some lb_idx from hlbi] at hok
    exact hok
  constructor
  · rintro ⟨hr, v, hdie, hval⟩
    have hidxN := reachL_lt u _ hroots hchild idx hr
    exact ⟨hr, v, hdie, (valid_at_iff_c5Valid u fr pc v hpc
      (hlbAux v hdie hidxN)).mp hval⟩
  · rintro ⟨hr, v, hdie, hval⟩
    have hidxN := reachL_lt u _ hroots hchild idx hr
    exact ⟨hr, v, hdie, (valid_at_iff_c5Valid u fr pc v hpc
      (hlbAux v hdie hidxN)).mpr hval⟩

/-- **C5, witness.**  In the four-entry unit at `pc = 5`, the variable
inside the lexical block (entry 3) is reported. -/
theorem c5_find_variables_witness :
    3 ∈ find_variables u5 ⟨[1, 2]⟩ 5 150 := by
  exact (c5_find_variables u5 ⟨[1, 2]⟩ ⟨0, 100⟩ 5 150 3
    (by decide) (by decide) (by decide) (by decide) (by decide)
    (by decide)).mpr
    ⟨ReachL.step (show ReachL u5 [1, 2] 2 from ReachL.base (by decide))
      (by decide),
     ⟨1, some 2⟩, rfl,
     ⟨⟨[⟨0, 10⟩]⟩, rfl, ⟨0, 10⟩, by decide, by decide, by decide⟩⟩

end Dwarf

namespace Unwind

theorem value_update_self (rs : Regs) (r v : Nat) :
    (rs.update r v).value r = some v := by
  induction rs with
  | nil =>
    show (if r = r then some v else Regs.value [] r) = some v
    rw [if_pos rfl]
  | cons p rest ih =>
    obtain ⟨a, b⟩ := p
    show Regs.value (if a = r then (r, v) :: rest
      else (a, b) :: Regs.update rest r v) r = some v
    by_cases h : a = r
    · rw [if_pos h]
      show (if r = r then some v else Regs.value rest r) = some v
      rw [if_pos rfl]
    · rw [if_neg h]
      show (if a = r then some b else Regs.value (Regs.update rest r v) r)
        = some v
      rw [if_neg h]
      exact ih

theorem value_update_ne (rs : Regs) (a r v : Nat) (h : a ≠ r) :
    (rs.update a v).value r = rs.value r := by
  induction rs with
  | nil =>
    show (if a = r then some v else Regs.value [] r) = Regs.value [] r
    rw [if_neg h]
  | cons p rest ih =>
    obtain ⟨x, y⟩ := p
    show Regs.value (if x = a then (a, v) :: rest
      else (x, y) :: Regs.update rest a v) r
      = (if x = r then some y else Regs.value rest r)
    by_cases hx : x = a
    · rw [if_pos hx]
      show (if a = r then some v else Regs.value rest r)
        = if x = r then some y else Regs.value rest r
      rw [if_neg h, if_neg (by omega : ¬ x = r)]
    · rw [if_neg hx]
      show (if x = r then some y else Regs.value (Regs.update rest a v) r)
        = if x = r then some y else Regs.value rest r
      by_cases hxr : x = r
      · rw [if_pos hxr, if_pos hxr]
      · rw [if_neg hxr, if_neg hxr]
        exact ih

theorem applyRowUpdates_append (env : Env) (snap : Regs) (cfa : Nat)
    (a b : List (Nat × RegisterRule)) (start : Regs) :
    applyRowUpdates env snap cfa (a ++ b) start
      = applyRowUpdates env snap cfa b
          (applyRowUpdates env snap cfa a start) := by
  simp [applyRowUpdates, List.foldl_append]

theorem applyRowUpdates_cons_fail (env : Env) (snap : Regs) (cfa reg : Nat)
    (rule : RegisterRule) (row : List (Nat × RegisterRule)) (start : Regs)
    (hfail : applyRule env snap cfa reg rule = none) :
    applyRowUpdates env snap cfa ((reg, rule) :: row) start
      = applyRowUpdates env snap cfa row start := by
  show applyRowUpdates env snap cfa row
      (match applyRule env snap cfa reg rule with
        | none => start
        | some v => start.update reg v)
    = applyRowUpdates env snap cfa row start
  rw [hfail]

theorem applyRowUpdates_not_mem (env : Env) (snap : Regs) (cfa : Nat)
    (r : Nat) :
    ∀ row start, r ∉ row.map Prod.fst →
    (applyRowUpdates env snap cfa row start).value r = start.value r := by
  intro row
  induction row with
  | nil => intro start _; rfl
  | cons p rest ih =>
    intro start hr
    obtain ⟨a, rule⟩ := p
    simp only [List.map_cons, List.mem_cons, not_or] at hr
    obtain ⟨hra, hrrest⟩ := hr
    show (applyRowUpdates env snap cfa rest
      (match applyRule env snap cfa a rule with
        | none => start
        | some v => start.update a v)).value r = start.value r
    cases hap : applyRule env snap cfa a rule with
    | none => exact ih _ hrrest
    | some v =>
      have h1 := ih (start.update a v) hrrest
      exact h1.trans (value_update_ne start a r v (fun hh => hra hh.symm))

theorem unwindLoop_prefix (env : Env) :
    ∀ fuel ctx acc bt, unwindLoop env fuel ctx acc = .ok bt →
    ∃ tail, bt = acc ++ tail := by
  intro fuel
  induction fuel with
  | zero =>
    intro ctx acc bt h
    simp [unwindLoop] at h
  | succ f ih =>
    intro ctx acc bt h
    simp only [unwindLoop] at h
    cases hra : returnAddress ctx with
    | none =>
      rw [hra] at h
      cases h
      exact ⟨[], (List.append_nil acc).symm⟩
    | some ra =>
      rw [hra] at h
      dsimp only at h
      cases hnx : nextCtx env ctx ra with
      | error e =>
        rw [hnx] at h
        cases h
      | ok o =>
        rw [hnx] at h
        cases o with
        | none =>
          cases h
          exact ⟨[], (List.append_nil acc).symm⟩
        | some ctx2 =>
          obtain ⟨tail, htail⟩ := ih ctx2 _ bt h
          exact ⟨[spanFor env ra] ++ tail,
            by rw [htail, List.append_assoc]⟩

/-- **C6.**  `DwarfUnwinder::unwind` follows the claimed algorithm: with no
FDE covering the starting address the backtrace is empty; a successful
backtrace starts with a span whose `ip` is the starting `pc`; every
register rule recovers the caller's value exactly per the claim's table
(`applyRuleSpec` is the table verbatim); stepping to the next frame seeds
it with the recovered registers and register 7 set to the CFA; and the
frame loop stops both when the return-address register is absent and when
`fde_for_address` has no unwind info for the return address. -/
theorem c6_unwind (env : Env) (fuel pc : Nat) :
    (env.fdeFor (pc - env.mappingOffset) = none →
      unwind env fuel pc = .ok []) ∧
    (∀ bt, unwind env fuel pc = .ok bt →
      ∀ hd, bt.head? = some hd → hd.ip = pc) ∧
    (∀ snap cfa reg rule, applyRule env snap cfa reg rule
      = applyRuleSpec env snap cfa reg rule) ∧
    (∀ ctx ra, nextCtx env ctx ra
        = newCtx env (ctx.registers.update 7 ctx.cfa) ra ∧
      (ctx.registers.update 7 ctx.cfa).value 7 = some ctx.cfa) ∧
    (∀ f ctx acc, returnAddress ctx = none →
      unwindLoop env (f + 1) ctx acc = .ok acc) ∧
    (∀ f ctx acc ra, returnAddress ctx = some ra →
      env.fdeFor (ra - env.mappingOffset) = none →
      unwindLoop env (f + 1) ctx acc = .ok acc) := by
  refine ⟨?_, ?_, ?_, ?_, ?_, ?_⟩
  · intro h
    have h2 : newCtx env env.initRegs pc = .ok none := by
      simp only [newCtx]
      rw [h]
    simp only [unwind]
    rw [h2]
  · intro bt h hd hhd
    simp only [unwind] at h
    cases hfde : newCtx env env.initRegs pc with
    | error e =>
      rw [hfde] at h
      cases h
    | ok o =>
      rw [hfde] at h
      cases o with
      | none =>
        cases h
        cases hhd
      | some ctx =>
        obtain ⟨tail, htail⟩ := unwindLoop_prefix env fuel ctx
          [spanFor env pc] bt h
        subst htail
        have h2 : some (spanFor env pc) = some hd := hhd
        cases h2
        rfl
  · intro snap cfa reg rule
    cases rule with
    | expression e =>
      simp only [applyRule, applyRuleSpec]
      cases env.evalExpr e with
      | none => rfl
      | some a => rfl
    | undefined => rfl
    | sameValue => rfl
    | offset k => rfl
    | valOffset k => rfl
    | register r => rfl
    | valExpression e => rfl
    | architectural => rfl
  · intro ctx ra
    exact ⟨rfl, value_update_self ctx.registers 7 ctx.cfa⟩
  · intro f ctx acc h
    simp only [unwindLoop]
    rw [h]
  · intro f ctx acc ra hra hfde
    have hnx : nextCtx env ctx ra = .ok none := by
      simp only [nextCtx, newCtx]
      rw [hfde]
    simp only [unwindLoop]
    rw [hra]
    dsimp only
    rw [hnx]

/-- **C6, witness.**  In the concrete environment: a start address with no
FDE yields the empty backtrace, and the one-frame backtrace at `pc = 100`
starts at `ip = 100`. -/
theorem c6_unwind_witness :
    unwind envC6 3 300 = Except.ok [] ∧ (spanFor envC6 100).ip = 100 :=
  ⟨(c6_unwind envC6 3 300).1 rfl,
   (c6_unwind envC6 3 100).2.1 [spanFor envC6 100] rfl
     (spanFor envC6 100) rfl⟩

/-- **C7.**  A register rule that fails to produce a value (`applyRule`
returns `none`, covering failed register reads, memory reads and
expression evaluations as well as `Undefined`/`Architectural`) only omits
that register: deleting the failing entry from the row gives the same
recovered registers; a register named by no other row entry keeps its
incoming value; `UnwindContext::new` errors only when the CFA rule itself
fails, never from a register rule; and when an FDE and CFA exist the frame
is still built, rule failures notwithstanding. -/
theorem c7_rule_failure_omits_only (env : Env) (snap : Regs) (cfa : Nat)
    (row1 row2 : List (Nat × RegisterRule)) (reg : Nat)
    (rule : RegisterRule) (start : Regs)
    (hfail : applyRule env snap cfa reg rule = none) :
    (applyRowUpdates env snap cfa (row1 ++ (reg, rule) :: row2) start
      = applyRowUpdates env snap cfa (row1 ++ row2) start) ∧
    (∀ r, r ∉ (row1 ++ row2).map Prod.fst →
      (applyRowUpdates env snap cfa (row1 ++ (reg, rule) :: row2)
        start).value r = start.value r) ∧
    (∀ regs2 pc2 e, newCtx env regs2 pc2 = .error e →
      e = .cfaFail ∧
      ∃ fde, env.fdeFor (pc2 - env.mappingOffset) = some fde ∧
        fde.cfaResult = none) ∧
    (∀ regs2 pc2 fde cfa2,
      env.fdeFor (pc2 - env.mappingOffset) = some fde →
      fde.cfaResult = some cfa2 →
      newCtx env regs2 pc2 = .ok (some
        ⟨applyRowUpdates env regs2 cfa2 fde.row regs2, cfa2,
          fde.returnAddressRegister⟩)) := by
  have hmain : applyRowUpdates env snap cfa (row1 ++ (reg, rule) :: row2)
      start = applyRowUpdates env snap cfa (row1 ++ row2) start := by
    rw [applyRowUpdates_append, applyRowUpdates_append,
      applyRowUpdates_cons_fail env snap cfa reg rule row2 _ hfail]
  refine ⟨hmain, ?_, ?_, ?_⟩
  · intro r hr
    rw [hmain]
    exact applyRowUpdates_not_mem env snap cfa r _ start hr
  · intro regs2 pc2 e h
    simp only [newCtx] at h
    cases hfde : env.fdeFor (pc2 - env.mappingOffset) with
    | none =>
      rw [hfde] at h
      cases h
    | some fde =>
      rw [hfde] at h
      dsimp only at h
      cases hcfa : fde.cfaResult with
      | none =>
        rw [hcfa] at h
        have h2 : (Except.error UErr.cfaFail
            : Except UErr (Option Ctx)) = .error e := h
        cases h2
        exact ⟨rfl, fde, rfl, hcfa⟩
      | some c =>
        rw [hcfa] at h
        cases h
  · intro regs2 pc2 fde cfa2 hfde hcfa
    simp only [newCtx]
    rw [hfde]
    dsimp only
    rw [hcfa]

/-- **C7, witness.**  With a failing `SameValue` rule for register 3 ahead
of a `ValOffset` rule for register 5, the recovered registers equal those
of the row without the failing entry. -/
theorem c7_rule_failure_omits_only_witness :
    applyRowUpdates envC7 [] 10 [(3, .sameValue), (5, .valOffset 2)] []
      = applyRowUpdates envC7 [] 10 [(5, .valOffset 2)] [] :=
  (c7_rule_failure_omits_only envC7 [] 10 [] [(5, .valOffset 2)] 3
    .sameValue [] rfl).1

end Unwind

namespace Brk

/-- **C8.**  Enabling a breakpoint (saving the byte at its address, then
writing the trap opcode) and then disabling it (restoring the saved byte)
leaves every byte of debuggee memory as it was. -/
theorem c8_enable_disable_identity (m : Mem) (b : Breakpoint) (a : Nat) :
    (disableBp (enableBp m b).1 (enableBp m b).2).1 a = m a := by
  unfold enableBp disableBp writeByte
  dsimp only
  by_cases h : a = b.addr
  · rw [if_pos h, h]
  · rw [if_neg h, if_neg h]

end Brk
